import Mathlib

/-!
# Verification of the shop-page catalog controller

A shallow embedding of the pure core of `src/assets/shop-page.js`:
tag parsing, badge derivation, filter-taxonomy building, the
filter/sort engine, the URL state codec, the clear-all state
transition, the catalog loader and pagination.

Modelling conventions:
* JS numbers that are only compared and subtracted (prices, timestamps,
  `featured` indices) are embedded as `Int` / `Nat`.
* A `createdAt` field is embedded as `Option Int`: the millisecond value
  of `new Date(createdAt)`, with `none` standing for an absent or empty
  string or an unparseable timestamp (an Invalid Date, whose numeric
  value is NaN; every numeric comparison with NaN is false, and a sort
  comparator that returns NaN is coerced to `+0` by `Array.prototype.sort`).
* JS objects used as string-keyed maps (`parsedTags`, `activeFilters`,
  the category map) are embedded as insertion-ordered association lists
  `List (String × List String)`; a JS object cannot hold the same key
  twice, which the operations below respect.
* `Array.prototype.sort` is required by ECMAScript to be stable and, for
  a consistent comparator, to order the array according to it; it is
  embedded as a stable insertion sort on the comparator `c` with the
  placement test `c a b ≤ 0` (NaN results already coerced to `0`).
* The query string is embedded as its decoded parameter sequence
  `List (String × String)` (percent-encoding is a bijective transport
  layer owned by `URLSearchParams`).
-/

/- ============================================================
   Data model
   ============================================================ -/

/-- A size/variant option `{title, available}`. -/
structure Variant where
  title : String
  available : Bool
deriving DecidableEq

/-- The derived merchandising badge; the JS code returns the string
`sale`, the string `new`, or `null` (embedded as `Badge.none`). -/
inductive Badge where
  | sale
  | new
  | none
deriving DecidableEq

/-- A normalized product record as produced by `loadShopifyProducts`. -/
structure Product where
  id : String
  handle : String
  name : String
  vendor : String
  url : String
  price : Int
  comparePrice : Option Int
  available : Bool
  image : String
  imageAlt : Option String
  rawTags : List String
  parsedTags : List (String × List String)
  type : String
  createdAt : Option Int
  variants : List Variant
  featured : Nat
  badge : Badge
deriving DecidableEq

/-- A derived filter group `{key, label, values}`. -/
structure FilterGroup where
  key : String
  label : String
  values : List String
deriving DecidableEq

/-- The page-lifetime mutable application state. -/
structure AppState where
  activeFilters : List (String × List String)
  sort : String
  collection : Option String
  highlightProduct : Option String
  currentPage : Nat
deriving DecidableEq

/-- A raw product entry of the JSON feed, before normalization.
Fields the loader guards with `||` defaults are `Option`-valued;
`createdAt` is the pre-parsed `new Date` value (see module docstring). -/
structure RawEntry where
  id : String
  handle : String
  name : String
  vendor : Option String
  url : Option String
  price : Int
  comparePrice : Option Int
  available : Bool
  image : Option String
  imageAlt : Option String
  tags : Option (List String)
  type : Option String
  createdAt : Option Int
  variants : Option (List Variant)
deriving DecidableEq

/-- One entry of the static collection alias table. -/
structure CollectionMapping where
  key : String
  value : String
deriving DecidableEq

/- ============================================================
   The JS stable sort (`Array.prototype.sort`)
   ============================================================ -/

/-- Insert `a` into `l` in front of the first element `b` with `le a b`. -/
def insertSorted (le : α → α → Bool) (a : α) : List α → List α
  | [] => [a]
  | b :: l => if le a b then a :: b :: l else b :: insertSorted le a l

/-- Stable sort: equal elements (those the placement test ties) keep
their input order, as ECMAScript requires of `Array.prototype.sort`. -/
def stableSort (le : α → α → Bool) : List α → List α
  | [] => []
  | a :: l => insertSorted le a (stableSort le l)

theorem insertSorted_perm (le : α → α → Bool) (a : α) (l : List α) :
    (insertSorted le a l).Perm (a :: l) := by
  induction l with
  | nil => simp [insertSorted]
  | cons b t ih =>
    by_cases h : le a b = true
    · simp [insertSorted, h]
    · simp only [insertSorted, h, Bool.false_eq_true, if_false]
      exact ((ih.cons b).trans (List.Perm.swap a b t))

theorem stableSort_perm (le : α → α → Bool) (l : List α) :
    (stableSort le l).Perm l := by
  induction l with
  | nil => simp [stableSort]
  | cons a t ih =>
    exact (insertSorted_perm le a (stableSort le t)).trans (ih.cons a)

theorem mem_insertSorted (le : α → α → Bool) (a x : α) (l : List α) :
    x ∈ insertSorted le a l ↔ x = a ∨ x ∈ l := by
  have h := (insertSorted_perm le a l).mem_iff (a := x)
  simpa using h

theorem mem_stableSort (le : α → α → Bool) (x : α) (l : List α) :
    x ∈ stableSort le l ↔ x ∈ l :=
  (stableSort_perm le l).mem_iff

theorem insertSorted_congr (le le' : α → α → Bool) (a : α) (l : List α)
    (h : ∀ y ∈ l, le a y = le' a y) :
    insertSorted le a l = insertSorted le' a l := by
  induction l with
  | nil => rfl
  | cons b t ih =>
    have hb : le a b = le' a b := h b (by simp)
    simp only [insertSorted, hb]
    by_cases hc : le' a b = true
    · simp [hc]
    · simp only [hc, Bool.false_eq_true, if_false]
      rw [ih (fun y hy => h y (by simp [hy]))]

theorem stableSort_congr (le le' : α → α → Bool) (l : List α)
    (h : ∀ x ∈ l, ∀ y ∈ l, le x y = le' x y) :
    stableSort le l = stableSort le' l := by
  induction l with
  | nil => rfl
  | cons a t ih =>
    have ht : stableSort le t = stableSort le' t :=
      ih (fun x hx y hy => h x (by simp [hx]) y (by simp [hy]))
    simp only [stableSort, ht]
    refine insertSorted_congr le le' a (stableSort le' t) (fun y hy => ?_)
    have hyt : y ∈ t := (mem_stableSort le' y t).mp hy
    exact h a (by simp) y (by simp [hyt])

/-- Sortedness of the stable sort, for a total transitive placement test. -/
theorem pairwise_insertSorted (le : α → α → Bool)
    (htot : ∀ a b, le a b = false → le b a = true)
    (htrans : ∀ a b c, le a b = true → le b c = true → le a c = true)
    (a : α) (l : List α) (hl : l.Pairwise (fun x y => le x y = true)) :
    (insertSorted le a l).Pairwise (fun x y => le x y = true) := by
  induction l with
  | nil => simp [insertSorted]
  | cons b t ih =>
    rcases List.pairwise_cons.mp hl with ⟨hbt, htp⟩
    by_cases h : le a b = true
    · simp only [insertSorted, h, if_true]
      refine List.pairwise_cons.mpr ⟨?_, hl⟩
      intro y hy
      rcases List.mem_cons.mp hy with hy | hy
      · subst hy
        exact h
      · exact htrans a b y h (hbt y hy)
    · simp only [insertSorted, h, Bool.false_eq_true, if_false]
      refine List.pairwise_cons.mpr ⟨?_, ih htp⟩
      intro y hy
      rcases (mem_insertSorted le a y t).mp hy with hy | hy
      · rw [hy]
        exact htot a b (by simpa using h)
      · exact hbt y hy

theorem pairwise_stableSort (le : α → α → Bool)
    (htot : ∀ a b, le a b = false → le b a = true)
    (htrans : ∀ a b c, le a b = true → le b c = true → le a c = true)
    (l : List α) :
    (stableSort le l).Pairwise (fun x y => le x y = true) := by
  induction l with
  | nil => simp [stableSort]
  | cons a t ih => exact pairwise_insertSorted le htot htrans a (stableSort le t) ih

/-- If the placement test accepts every pair of the list, the stable sort
is the identity (all elements tie, and ties keep input order). -/
theorem stableSort_of_all_le (le : α → α → Bool) (l : List α)
    (h : ∀ x ∈ l, ∀ y ∈ l, le x y = true) : stableSort le l = l := by
  induction l with
  | nil => rfl
  | cons a t ih =>
    have ht : stableSort le t = t :=
      ih (fun x hx y hy => h x (by simp [hx]) y (by simp [hy]))
    simp only [stableSort, ht]
    cases t with
    | nil => rfl
    | cons b u =>
      have hab : le a b = true := h a (by simp) b (by simp)
      simp [insertSorted, hab]

/-- A difference comparator's placement test is the key comparison. -/
theorem subCmp_eq (f : α → Int) :
    (fun x y => decide (f x - f y ≤ 0)) = (fun x y => decide (f x ≤ f y)) := by
  funext x y
  simp [sub_nonpos]

/-- Stability, phrased through filters: for a placement test induced by a
key `f`, the elements with any fixed key value keep their input order. -/
theorem filter_insertSorted (f : α → Int) (a : α) (l : List α) (v : Int) :
    (insertSorted (fun x y => decide (f x ≤ f y)) a l).filter
        (fun x => decide (f x = v)) =
      if f a = v then a :: l.filter (fun x => decide (f x = v))
      else l.filter (fun x => decide (f x = v)) := by
  induction l with
  | nil =>
    by_cases h : f a = v <;> simp [insertSorted, List.filter, h]
  | cons b t ih =>
    by_cases hab : f a ≤ f b
    · have hd : decide (f a ≤ f b) = true := by simpa using hab
      simp only [insertSorted, hd, if_true]
      by_cases h : f a = v <;> simp [List.filter_cons, h]
    · have hba : f b < f a := by omega
      have hd : decide (f a ≤ f b) = false := by simpa using hab
      simp only [insertSorted, hd, Bool.false_eq_true, if_false]
      by_cases h : f a = v
      · have hbv : ¬ f b = v := by omega
        simp [List.filter_cons, hbv, ih, h]
      · by_cases hbv : f b = v <;> simp [List.filter_cons, hbv, ih, h]

theorem filter_stableSort (f : α → Int) (l : List α) (v : Int) :
    (stableSort (fun x y => decide (f x ≤ f y)) l).filter
        (fun x => decide (f x = v)) =
      l.filter (fun x => decide (f x = v)) := by
  induction l with
  | nil => rfl
  | cons a t ih =>
    simp only [stableSort, filter_insertSorted, ih]
    by_cases h : f a = v <;> simp [List.filter_cons, h]

/- ============================================================
   Tag parser (`parseTags`) and the shared assoc-list idioms
   ============================================================ -/

/-- `if (arr.indexOf(v) === -1) arr.push(v)`. -/
def addValueOnce (vs : List String) (v : String) : List String :=
  if vs.contains v then vs else vs ++ [v]

/-- `if (!obj[cat]) obj[cat] = []` on an insertion-ordered object. -/
def ensureEntry (cat : String) : List (String × List String) → List (String × List String)
  | [] => [(cat, [])]
  | e :: rest => if e.1 = cat then e :: rest else e :: ensureEntry cat rest

/-- Add one value under a category: create the key slot if needed and
push the value unless already present. -/
def bumpEntry (cat v : String) : List (String × List String) → List (String × List String)
  | [] => [(cat, [v])]
  | e :: rest =>
    if e.1 = cat then (e.1, addValueOnce e.2 v) :: rest else e :: bumpEntry cat v rest

/-- `tag.indexOf(':')` (UTF-16 index; `-1` when absent). -/
def colonIndexAux : List Char → Nat → Int
  | [], _ => -1
  | c :: cs, n => if c = ':' then (n : Int) else colonIndexAux cs (n + 1)

def colonIndex (s : String) : Int := colonIndexAux s.data 0

/-- One iteration of the `tags.forEach` loop of `parseTags`. -/
def parseTagsStep (result : List (String × List String)) (tag : String) :
    List (String × List String) :=
  let ci := colonIndex tag
  let category := if ci > 0 then (String.mk (tag.data.take ci.toNat)).trim else "Other"
  let value := if ci > 0 then (String.mk (tag.data.drop (ci.toNat + 1))).trim else tag.trim
  if value = "" then result
  else bumpEntry category value (ensureEntry category result)

/-- `parseTags`: split each tag at the first colon; colon-less tags fall
into the fixed category `Other`; empty (post-trim) values are dropped;
duplicate values per category are dropped, first occurrence order kept. -/
def parseTags (tags : List String) : List (String × List String) :=
  tags.foldl parseTagsStep []

/- ============================================================
   Badge derivation (`getBadge`)
   ============================================================ -/

/-- JS truthiness of a possibly-absent number (`0` and absence are falsy). -/
def jsTruthyInt : Option Int → Bool
  | some n => decide (n ≠ 0)
  | none => false

/-- Milliseconds in 30 days; `thirtyDaysAgo` is `now` minus this span. -/
def THIRTY_DAYS_MS : Int := 2592000000

/-- `getBadge(p)`: `sale` if `comparePrice` is truthy and exceeds `price`;
else `new` if `createdAt` parses and lies strictly after `now - 30d`;
else `null`. `now` is the clock reading taken inside the function. -/
def getBadge (now : Int) (p : RawEntry) : Badge :=
  if jsTruthyInt p.comparePrice && decide (p.comparePrice.getD 0 > p.price) then Badge.sale
  else
    match p.createdAt with
    | some created => if created > now - THIRTY_DAYS_MS then Badge.new else Badge.none
    | none => Badge.none

/- ============================================================
   Catalog loader (`loadShopifyProducts`)
   ============================================================ -/

/-- `a || d` on a possibly-absent string (empty strings are falsy). -/
def jsOrStr (o : Option String) (d : String) : String :=
  match o with
  | some s => if s = "" then d else s
  | none => d

/-- First truthy of a chain `a || b || null`. -/
def jsTruthyStr : Option String → Option String
  | some s => if s = "" then none else some s
  | none => none

def PLACEHOLDER_IMAGE : String :=
  "https://placehold.co/600x800/e8eaed/6b7280?text=No+Image"

/-- The per-entry normalization of the loader's `raw.map` callback. -/
def normalizeProduct (now : Int) (index : Nat) (p : RawEntry) : Product :=
  { id := p.id
    handle := p.handle
    name := p.name
    vendor := jsOrStr p.vendor ""
    url := jsOrStr p.url ("/products/" ++ p.handle)
    price := p.price
    comparePrice := p.comparePrice
    available := p.available
    image := jsOrStr p.image PLACEHOLDER_IMAGE
    imageAlt :=
      match jsTruthyStr p.imageAlt with
      | some s => some s
      | none => jsTruthyStr p.image
    rawTags := p.tags.getD []
    parsedTags := parseTags (p.tags.getD [])
    type := jsOrStr p.type ""
    createdAt := p.createdAt
    variants := p.variants.getD []
    featured := index
    badge := getBadge now p }

/-- The `raw.map(function (p, index) ...)` traversal. -/
def loadAux (now : Int) (index : Nat) : List RawEntry → List Product
  | [] => []
  | r :: rs => normalizeProduct now index r :: loadAux now (index + 1) rs

/-- `loadShopifyProducts`: `none` embeds a missing `shopify-product-data`
element, `Except.error` a `JSON.parse` throw (both yield `[]` after the
`console.error` diagnostic), `Except.ok` a parsed entry array. -/
def loadShopifyProducts (now : Int) (input : Option (Except Unit (List RawEntry))) :
    List Product :=
  match input with
  | none => []
  | some (Except.error _) => []
  | some (Except.ok raws) => loadAux now 0 raws

/- ============================================================
   Filter taxonomy builder (`buildFilterGroups`)
   ============================================================ -/

def PREFERRED_ORDER : List String :=
  ["Industry", "Protection", "Protection Type", "Cert Level", "Certification",
   "Material", "Gender", "Season", "Season & Feature", "Feature"]

def HIDDEN_CATEGORIES : List String := ["Other"]

/-- Lookup of `m[c]` on the insertion-ordered object embedding. -/
def lookupCat (m : List (String × List String)) (c : String) : Option (List String) :=
  (m.find? (fun e => e.1 = c)).map (fun e => e.2)

/-- The inner `tags[cat].forEach(val => categoryMap[cat][val] = true)`. -/
def addValues (c : String) (m : List (String × List String)) :
    List String → List (String × List String)
  | [] => m
  | v :: vs => addValues c (bumpEntry c v m) vs

/-- Process one `parsedTags` entry of one product (the `for (var cat in
tags)` body): hidden categories are skipped, the key slot is created
even when the entry has no values. -/
def addEntry (m : List (String × List String)) (e : String × List String) :
    List (String × List String) :=
  if HIDDEN_CATEGORIES.contains e.1 then m else addValues e.1 (ensureEntry e.1 m) e.2

def addEntries (m : List (String × List String)) :
    List (String × List String) → List (String × List String)
  | [] => m
  | e :: rest => addEntries (addEntry m e) rest

/-- The `products.forEach` accumulation of `categoryMap`. -/
def categoryMapAux (m : List (String × List String)) :
    List Product → List (String × List String)
  | [] => m
  | p :: ps => categoryMapAux (addEntries m p.parsedTags) ps

def categoryMap (ps : List Product) : List (String × List String) :=
  categoryMapAux [] ps

/-- `Array.prototype.sort()` with no comparator on an array of strings:
lexicographic ascending, embedded with the same stable sort. -/
def sortStrings (l : List String) : List String :=
  stableSort (fun a b => decide (a ≤ b)) l

def mkGroup (cat : String) (vals : List String) : FilterGroup :=
  { key := cat, label := cat, values := sortStrings vals }

/-- `buildFilterGroups`: preferred categories first (in the fixed order,
when present in the data), remaining categories after them in ascending
lexical order; each group's values are sorted ascending. -/
def buildFilterGroups (ps : List Product) : List FilterGroup :=
  let m := categoryMap ps
  let prefGroups := PREFERRED_ORDER.filterMap (fun c => (lookupCat m c).map (mkGroup c))
  let used := PREFERRED_ORDER.filter (fun c => (lookupCat m c).isSome)
  let restKeys := (sortStrings (m.map Prod.fst)).filter (fun c => !used.contains c)
  prefGroups ++ restKeys.filterMap (fun c => (lookupCat m c).map (mkGroup c))

/- ============================================================
   Filter/sort engine
   ============================================================ -/

/-- `product.parsedTags[groupKey] || []`. -/
def tagValues (p : Product) (groupKey : String) : List String :=
  (lookupCat p.parsedTags groupKey).getD []

/-- `productMatchesGroup`: some selected value occurs among the
product's values under the group key (OR within a group). -/
def productMatchesGroup (p : Product) (groupKey : String) (selectedValues : List String) :
    Bool :=
  selectedValues.any (fun v => (tagValues p groupKey).contains v)

/-- `filterProducts`: AND across the groups with a non-empty selection;
with no such group the input list is returned as-is. -/
def filterProducts (products : List Product) (filters : List (String × List String)) :
    List Product :=
  let active := filters.filter (fun kv => !kv.2.isEmpty)
  if active.isEmpty then products
  else products.filter (fun p => active.all (fun kv => productMatchesGroup p kv.1 kv.2))

/-- The `newest` comparator `new Date(b.createdAt) - new Date(a.createdAt)`:
if either side is an Invalid Date the subtraction is NaN, which the JS
sort coerces to `+0` (a tie). -/
def newestCmp (a b : Product) : Int :=
  match b.createdAt, a.createdAt with
  | some tb, some ta => tb - ta
  | some _, none => 0
  | none, some _ => 0
  | none, none => 0

/-- The comparator selected by the `switch (sortKey)`. -/
def sortCmp (sortKey : String) : Product → Product → Int :=
  if sortKey = "price-asc" then fun a b => a.price - b.price
  else if sortKey = "price-desc" then fun a b => b.price - a.price
  else if sortKey = "newest" then newestCmp
  else if sortKey = "best-selling" then fun a b => (a.featured : Int) - (b.featured : Int)
  else fun a b => (a.featured : Int) - (b.featured : Int)

/-- `sortProducts`: `products.slice()` then an in-place stable sort of
the copy, so a new sequence is produced and the input is untouched. -/
def sortProducts (products : List Product) (sortKey : String) : List Product :=
  stableSort (fun a b => decide (sortCmp sortKey a b ≤ 0)) products

/-- `countForValue`: count against the active filters of the *other*
groups only, of the products carrying `value` under `groupKey`. -/
def countForValue (allProducts : List Product) (currentFilters : List (String × List String))
    (groupKey value : String) : Nat :=
  ((filterProducts allProducts
      (currentFilters.filter (fun kv => decide (kv.1 ≠ groupKey) && !kv.2.isEmpty))).filter
    (fun p => (tagValues p groupKey).contains value)).length

/-- `totalActiveCount`: total number of selected values across groups. -/
def totalActiveCount (filters : List (String × List String)) : Nat :=
  filters.foldl (fun acc kv => acc + kv.2.length) 0

/- ============================================================
   Collection alias table
   ============================================================ -/

def COLLECTION_MAP : List (String × CollectionMapping) :=
  [("hi-vis",          { key := "Protection", value := "Hi-Vis" }),
   ("welding",         { key := "Industry",   value := "Welding" }),
   ("chemical",        { key := "Industry",   value := "Chemical" }),
   ("oil-gas",         { key := "Industry",   value := "Oil & Gas" }),
   ("manufacturing",   { key := "Industry",   value := "Manufacturing" }),
   ("automotive",      { key := "Industry",   value := "Automotive" }),
   ("construction",    { key := "Industry",   value := "Construction" }),
   ("railway",         { key := "Industry",   value := "Railway" }),
   ("electricians",    { key := "Industry",   value := "Electricians" }),
   ("flame-resistant", { key := "Protection", value := "Flame Resistant" }),
   ("arc-flash",       { key := "Protection", value := "Arc Flash" }),
   ("winter",          { key := "Season",     value := "Winter" }),
   ("summer",          { key := "Season",     value := "Summer" })]

/- ============================================================
   URL state codec (`readURLParams` / `writeURLParams`)
   ============================================================ -/

/-- `String.prototype.split(',')` at character level: split at every
comma, keeping empty pieces. -/
def splitCommaCh : List Char → List (List Char)
  | [] => [[]]
  | c :: cs =>
    if c = ',' then [] :: splitCommaCh cs
    else
      match splitCommaCh cs with
      | [] => [[c]]
      | h :: t => (c :: h) :: t

def splitComma (s : String) : List String :=
  (splitCommaCh s.data).map String.mk

/-- `Array.prototype.join(',')` at character level. -/
def joinCommaCh : List (List Char) → List Char
  | [] => []
  | [l] => l
  | l :: ls => l ++ ',' :: joinCommaCh ls

def joinComma (vs : List String) : String :=
  String.mk (joinCommaCh (vs.map String.data))

/-- `URLSearchParams.get`: value of the first pair with the name, if any. -/
def getParam (params : List (String × String)) (k : String) : Option String :=
  (params.find? (fun p => p.1 = k)).map (fun p => p.2)

/-- `URLSearchParams.set`: replace the first pair with the name and drop
the others, else append. -/
def setParam (params : List (String × String)) (k v : String) : List (String × String) :=
  match params with
  | [] => [(k, v)]
  | p :: rest =>
    if p.1 = k then (k, v) :: rest.filter (fun q => decide (q.1 ≠ k))
    else p :: setParam rest k v

/-- `state.activeFilters[k]` on the assoc-list embedding. -/
def lookupFilter (filters : List (String × List String)) (k : String) :
    Option (List String) :=
  (filters.find? (fun e => e.1 = k)).map (fun e => e.2)

/-- `state.activeFilters[k] = vs` (JS object assignment: overwrite the
existing slot in place, else append a new one). -/
def setFilter (filters : List (String × List String)) (k : String) (vs : List String) :
    List (String × List String) :=
  match filters with
  | [] => [(k, vs)]
  | e :: rest => if e.1 = k then (k, vs) :: rest else e :: setFilter rest k vs

/-- One iteration of the decoder's `FILTER_GROUPS.forEach` loop. -/
def readStep (params : List (String × String)) (acc : List (String × List String))
    (g : FilterGroup) : List (String × List String) :=
  match getParam params g.key with
  | some v => if v = "" then acc else setFilter acc g.key (splitComma v)
  | none => acc

/-- `params.get(k) || null` (an empty parameter value is falsy). -/
def jsStrOrNone (o : Option String) : Option String :=
  match o with
  | some s => if s = "" then Option.none else some s
  | none => Option.none

/-- `params.get('sort') || 'featured'`. -/
def jsSortDefault (o : Option String) : String :=
  match o with
  | some s => if s = "" then "featured" else s
  | none => "featured"

/-- `COLLECTION_MAP[c]`. -/
def lookupCollection (c : String) : Option CollectionMapping :=
  (COLLECTION_MAP.find? (fun e => e.1 = c)).map (fun e => e.2)

/-- The decoder's collection pre-filter: if the collection names a known
mapping and its group has no selection yet, seed it with the mapped
value. -/
def applyCollectionSeed (collection : Option String)
    (af0 : List (String × List String)) : List (String × List String) :=
  match collection with
  | some c =>
    match lookupCollection c with
    | some mapping =>
      match lookupFilter af0 mapping.key with
      | some vs => if vs.isEmpty then setFilter af0 mapping.key [mapping.value] else af0
      | none => setFilter af0 mapping.key [mapping.value]
    | none => af0
  | none => af0

/-- `readURLParams`, with the ambient `FILTER_GROUPS` and the prior state
passed explicitly; only the fields the function assigns change
(`currentPage` is never touched by the decoder). -/
def readURLParams (groups : List FilterGroup) (params : List (String × String))
    (st : AppState) : AppState :=
  { activeFilters :=
      applyCollectionSeed (jsStrOrNone (getParam params "collection"))
        (groups.foldl (readStep params) [])
    sort := jsSortDefault (getParam params "sort")
    collection := jsStrOrNone (getParam params "collection")
    highlightProduct := jsStrOrNone (getParam params "product")
    currentPage := st.currentPage }

/-- One iteration of the encoder's `FILTER_GROUPS.forEach` loop. -/
def writeStep (st : AppState) (ps : List (String × String)) (g : FilterGroup) :
    List (String × String) :=
  match lookupFilter st.activeFilters g.key with
  | some vs => if vs.isEmpty then ps else setParam ps g.key (joinComma vs)
  | none => ps

/-- `if (state.collection) params.set('collection', state.collection)`,
starting from the empty parameter list. -/
def collectionPart (o : Option String) : List (String × String) :=
  match o with
  | some c => if c = "" then [] else setParam [] "collection" c
  | none => []

/-- `writeURLParams`, producing the query `URLSearchParams` sequence
(the `history.replaceState` call is presentation). -/
def writeURLParams (groups : List FilterGroup) (st : AppState) :
    List (String × String) :=
  groups.foldl (writeStep st)
    (if st.sort ≠ "" ∧ st.sort ≠ "featured" then
      setParam (collectionPart st.collection) "sort" st.sort
    else collectionPart st.collection)

/- ============================================================
   Pagination (`renderGrid`) and clear-all
   ============================================================ -/

def ITEMS_PER_PAGE : Nat := 12

/-- `products.slice(0, state.currentPage * ITEMS_PER_PAGE)`: the products
the grid displays (renderGrid with an empty list blanks the grid, which
coincides with the empty slice). -/
def visibleProducts (products : List Product) (currentPage : Nat) : List Product :=
  products.take (currentPage * ITEMS_PER_PAGE)

/-- `visibleProducts.length < products.length`: whether the load-more
control is shown (with an empty list the pagination block is hidden,
which coincides with this being false). -/
def hasMoreProducts (products : List Product) (currentPage : Nat) : Bool :=
  decide ((visibleProducts products currentPage).length < products.length)

/-- The only state mutation inside the render cycle: `renderGrid` nulls a
pending `highlightProduct` once it has rendered a non-empty grid
(`gridPresent` embeds whether the grid container exists in the DOM; with
an empty product list the function returns before that code). -/
def renderGridStateEffect (gridPresent : Bool) (products : List Product)
    (st : AppState) : AppState :=
  if !gridPresent then st
  else if products.isEmpty then st
  else
    match st.highlightProduct with
    | some _ => { st with highlightProduct := Option.none }
    | none => st

/-- `clearAllFilters`: reset filters, collection and pagination, then run
the `update()` cycle, whose only state effect is `renderGridStateEffect`
applied to the freshly filtered and sorted catalog. -/
def clearAllFilters (gridPresent : Bool) (catalog : List Product) (st : AppState) :
    AppState :=
  renderGridStateEffect gridPresent
    (sortProducts (filterProducts catalog []) st.sort)
    { st with activeFilters := [], collection := Option.none, currentPage := 1 }

/- ============================================================
   Helper lemmas: filter engine
   ============================================================ -/

theorem bool_ext {a b : Bool} (h : a = true ↔ b = true) : a = b := by
  cases a <;> cases b <;> simp_all

/-- The survival predicate of `filterProducts`, over all of `filters`. -/
def matchesActive (filters : List (String × List String)) (p : Product) : Bool :=
  filters.all (fun kv => kv.2.isEmpty || productMatchesGroup p kv.1 kv.2)

theorem all_filter_nonEmpty (filters : List (String × List String)) (p : Product) :
    (filters.filter (fun kv => !kv.2.isEmpty)).all
        (fun kv => productMatchesGroup p kv.1 kv.2) =
      matchesActive filters p := by
  induction filters with
  | nil => rfl
  | cons kv rest ih =>
    by_cases h : kv.2.isEmpty = true
    · simp [matchesActive, List.filter_cons, List.all_cons, h] at ih ⊢
      exact ih
    · have h2 : kv.2.isEmpty = false := by simpa using h
      simp [matchesActive, List.filter_cons, List.all_cons, h2] at ih ⊢
      rw [ih]

theorem filterProducts_eq_filter (products : List Product)
    (filters : List (String × List String)) :
    filterProducts products filters = products.filter (matchesActive filters) := by
  unfold filterProducts
  by_cases h : (filters.filter (fun kv => !kv.2.isEmpty)).isEmpty = true
  · simp only [h, if_true]
    have hall : ∀ kv ∈ filters, kv.2.isEmpty = true := by
      intro kv hkv
      have hnil : filters.filter (fun kv => !kv.2.isEmpty) = [] :=
        List.isEmpty_iff.mp h
      by_contra hne
      have : kv ∈ filters.filter (fun kv => !kv.2.isEmpty) := by
        refine List.mem_filter.mpr ⟨hkv, ?_⟩
        simpa using hne
      simp [hnil] at this
    symm
    refine List.filter_eq_self.mpr (fun p _ => ?_)
    refine List.all_eq_true.mpr (fun kv hkv => ?_)
    simp [hall kv hkv]
  · simp only [h, Bool.false_eq_true, if_false]
    exact List.filter_congr (fun p _ => all_filter_nonEmpty filters p)

theorem matchesActive_eq_true (filters : List (String × List String)) (p : Product) :
    matchesActive filters p = true ↔
      ∀ kv ∈ filters, kv.2 ≠ [] → productMatchesGroup p kv.1 kv.2 = true := by
  unfold matchesActive
  rw [List.all_eq_true]
  constructor
  · intro h kv hkv hne
    have := h kv hkv
    have hie : kv.2.isEmpty = false := by
      cases kv2 : kv.2 with
      | nil => exact absurd kv2 hne
      | cons a t => simp [kv2]
    simpa [hie] using this
  · intro h kv hkv
    by_cases hne : kv.2 = []
    · simp [hne]
    · simp [h kv hkv hne]

theorem mem_filterProducts (products : List Product)
    (filters : List (String × List String)) (p : Product) :
    p ∈ filterProducts products filters ↔
      p ∈ products ∧
        ∀ kv ∈ filters, kv.2 ≠ [] → productMatchesGroup p kv.1 kv.2 = true := by
  rw [filterProducts_eq_filter, List.mem_filter, matchesActive_eq_true]

/-- C1. `filterProducts` returns an order-preserving subsequence of the
input; a product is kept iff it matches every group of `activeFilters`
that has a non-empty selection (AND across groups, OR within a group via
`productMatchesGroup`); with no non-empty selection the input list is
returned unchanged. -/
theorem claim1_filterProducts (products : List Product)
    (filters : List (String × List String)) :
    (filterProducts products filters).Sublist products ∧
      (∀ p, p ∈ filterProducts products filters ↔
        p ∈ products ∧
          ∀ kv ∈ filters, kv.2 ≠ [] → productMatchesGroup p kv.1 kv.2 = true) ∧
      ((∀ kv ∈ filters, kv.2 = []) → filterProducts products filters = products) := by
  refine ⟨?_, fun p => mem_filterProducts products filters p, ?_⟩
  · rw [filterProducts_eq_filter]
    exact List.filter_sublist products
  · intro hall
    rw [filterProducts_eq_filter]
    refine List.filter_eq_self.mpr (fun p _ => ?_)
    refine (matchesActive_eq_true filters p).mpr (fun kv hkv hne => ?_)
    exact absurd (hall kv hkv) hne

theorem claim1_filterProducts_witness :
    (filterProducts [] [("Industry", ["Welding"])]).Sublist [] ∧
      (∀ p, p ∈ filterProducts [] [("Industry", ["Welding"])] ↔
        p ∈ ([] : List Product) ∧
          ∀ kv ∈ [("Industry", ["Welding"])], kv.2 ≠ [] →
            productMatchesGroup p kv.1 kv.2 = true) ∧
      ((∀ kv ∈ [("Industry", ["Welding"])], kv.2 = ([] : List String)) →
        filterProducts [] [("Industry", ["Welding"])] = []) :=
  claim1_filterProducts [] [("Industry", ["Welding"])]

/- ============================================================
   C2: countForValue
   ============================================================ -/

/-- C2. `countForValue` counts exactly the products that carry `value`
under `groupKey` and satisfy every *other* group's non-empty selection,
and it only depends on the filter entries of the other groups, so
changing the selection inside `groupKey` itself never changes it. -/
theorem claim2_countForValue (allProducts : List Product)
    (currentFilters : List (String × List String)) (groupKey value : String) :
    (countForValue allProducts currentFilters groupKey value =
      (allProducts.filter (fun p =>
        (tagValues p groupKey).contains value &&
          decide (∀ kv ∈ currentFilters, kv.1 ≠ groupKey → kv.2 ≠ [] →
            productMatchesGroup p kv.1 kv.2 = true))).length) ∧
      (∀ otherFilters : List (String × List String),
        currentFilters.filter (fun kv => decide (kv.1 ≠ groupKey)) =
          otherFilters.filter (fun kv => decide (kv.1 ≠ groupKey)) →
        countForValue allProducts currentFilters groupKey value =
          countForValue allProducts otherFilters groupKey value) := by
  have hsplit : ∀ fs : List (String × List String),
      fs.filter (fun kv => decide (kv.1 ≠ groupKey) && !kv.2.isEmpty) =
        (fs.filter (fun kv => decide (kv.1 ≠ groupKey))).filter
          (fun kv => !kv.2.isEmpty) := by
    intro fs
    rw [List.filter_filter]
    refine List.filter_congr (fun kv hkv => ?_)
    exact Bool.and_comm _ _
  constructor
  · unfold countForValue
    rw [filterProducts_eq_filter, List.filter_filter]
    congr 1
    refine List.filter_congr (fun p _ => ?_)
    have hiff : (matchesActive (currentFilters.filter
          (fun kv => decide (kv.1 ≠ groupKey) && !kv.2.isEmpty)) p = true) ↔
        (∀ kv ∈ currentFilters, kv.1 ≠ groupKey → kv.2 ≠ [] →
          productMatchesGroup p kv.1 kv.2 = true) := by
      rw [matchesActive_eq_true]
      constructor
      · intro h kv hkv hne hvs
        refine h kv ?_ hvs
        refine List.mem_filter.mpr ⟨hkv, ?_⟩
        have : kv.2.isEmpty = false := by
          cases h2 : kv.2 with
          | nil => exact absurd h2 hvs
          | cons a t => simp
        simp [hne, this]
      · intro h kv hkv hvs
        rcases List.mem_filter.mp hkv with ⟨hmem, hcond⟩
        have hne : kv.1 ≠ groupKey := by
          simp only [Bool.and_eq_true, decide_eq_true_eq] at hcond
          exact hcond.1
        exact h kv hmem hne hvs
    have heq : matchesActive (currentFilters.filter
          (fun kv => decide (kv.1 ≠ groupKey) && !kv.2.isEmpty)) p =
        decide (∀ kv ∈ currentFilters, kv.1 ≠ groupKey → kv.2 ≠ [] →
          productMatchesGroup p kv.1 kv.2 = true) := by
      refine bool_ext ?_
      rw [decide_eq_true_eq]
      exact hiff
    rw [heq, Bool.and_comm]
  · intro otherFilters heq
    unfold countForValue
    rw [hsplit, hsplit, heq]

theorem claim2_countForValue_witness :
    (countForValue [] [("Industry", ["Welding"])] "Gender" "Men" =
      (List.filter (fun p =>
        (tagValues p "Gender").contains "Men" &&
          decide (∀ kv ∈ [("Industry", ["Welding"])], kv.1 ≠ "Gender" → kv.2 ≠ [] →
            productMatchesGroup p kv.1 kv.2 = true)) []).length) ∧
      (∀ otherFilters : List (String × List String),
        List.filter (fun kv => decide (kv.1 ≠ "Gender")) [("Industry", ["Welding"])] =
          otherFilters.filter (fun kv => decide (kv.1 ≠ "Gender")) →
        countForValue [] [("Industry", ["Welding"])] "Gender" "Men" =
          countForValue [] otherFilters "Gender" "Men") :=
  claim2_countForValue [] [("Industry", ["Welding"])] "Gender" "Men"

/- ============================================================
   C10: pagination
   ============================================================ -/

/-- C10. The grid reveals exactly the first `min n (12 * page)` products
of the filtered/sorted list, and the load-more control is offered iff
`12 * page < n`. -/
theorem claim10_pagination (products : List Product) (page : Nat) :
    visibleProducts products page =
        products.take (min products.length (ITEMS_PER_PAGE * page)) ∧
      (hasMoreProducts products page = true ↔
        ITEMS_PER_PAGE * page < products.length) := by
  constructor
  · unfold visibleProducts
    rw [List.take_eq_take]
    simp [ITEMS_PER_PAGE]
    omega
  · unfold hasMoreProducts visibleProducts
    rw [decide_eq_true_eq, List.length_take]
    simp [ITEMS_PER_PAGE]
    omega

theorem claim10_pagination_witness :
    visibleProducts [] 1 =
        List.take (min (List.length ([] : List Product)) (ITEMS_PER_PAGE * 1)) [] ∧
      (hasMoreProducts [] 1 = true ↔ ITEMS_PER_PAGE * 1 < List.length ([] : List Product)) :=
  claim10_pagination [] 1

/- ============================================================
   C9: catalog loader
   ============================================================ -/

theorem loadAux_length (now : Int) (index : Nat) (rs : List RawEntry) :
    (loadAux now index rs).length = rs.length := by
  induction rs generalizing index with
  | nil => rfl
  | cons r t ih => simp [loadAux, ih]

theorem loadAux_get (now : Int) (rs : List RawEntry) (index k : Nat)
    (h : k < rs.length) (h2 : k < (loadAux now index rs).length) :
    (loadAux now index rs).get ⟨k, h2⟩ =
      normalizeProduct now (index + k) (rs.get ⟨k, h⟩) := by
  induction rs generalizing index k with
  | nil => simp at h
  | cons r t ih =>
    cases k with
    | zero => simp [loadAux]
    | succ n =>
      have hn : n < t.length := by simpa using h
      have hn2 : n < (loadAux now (index + 1) t).length := by
        rw [loadAux_length]
        exact hn
      have := ih (index + 1) n hn hn2
      simp only [loadAux, List.get_cons_succ]
      rw [this]
      congr 1
      omega

/-- C9. A missing feed element or a parse failure yields an empty
catalog (non-fatal); otherwise the loader produces one normalized
product per raw entry, in input order, with `featured` equal to the
zero-based input index. -/
theorem claim9_loader (now : Int) (e : Unit) (raws : List RawEntry) :
    loadShopifyProducts now Option.none = [] ∧
      loadShopifyProducts now (some (Except.error e)) = [] ∧
      (loadShopifyProducts now (some (Except.ok raws))).length = raws.length ∧
      (∀ k (h : k < raws.length)
          (h2 : k < (loadShopifyProducts now (some (Except.ok raws))).length),
        (loadShopifyProducts now (some (Except.ok raws))).get ⟨k, h2⟩ =
            normalizeProduct now k (raws.get ⟨k, h⟩) ∧
          ((loadShopifyProducts now (some (Except.ok raws))).get ⟨k, h2⟩).featured = k) := by
  refine ⟨rfl, rfl, loadAux_length now 0 raws, ?_⟩
  intro k h h2
  have hg : (loadShopifyProducts now (some (Except.ok raws))).get ⟨k, h2⟩ =
      normalizeProduct now (0 + k) (raws.get ⟨k, h⟩) :=
    loadAux_get now raws 0 k h h2
  rw [Nat.zero_add] at hg
  exact ⟨hg, by rw [hg]; rfl⟩

def sampleRaw : RawEntry :=
  { id := "1", handle := "jacket", name := "Jacket", vendor := Option.none,
    url := Option.none, price := 10, comparePrice := Option.none, available := true,
    image := Option.none, imageAlt := Option.none,
    tags := some ["Industry: Welding"], type := Option.none,
    createdAt := Option.none, variants := Option.none }

theorem claim9_loader_witness :
    loadShopifyProducts 0 Option.none = [] ∧
      loadShopifyProducts 0 (some (Except.error ())) = [] ∧
      (loadShopifyProducts 0 (some (Except.ok [sampleRaw]))).length = [sampleRaw].length ∧
      (∀ k (h : k < [sampleRaw].length)
          (h2 : k < (loadShopifyProducts 0 (some (Except.ok [sampleRaw]))).length),
        (loadShopifyProducts 0 (some (Except.ok [sampleRaw]))).get ⟨k, h2⟩ =
            normalizeProduct 0 k ([sampleRaw].get ⟨k, h⟩) ∧
          ((loadShopifyProducts 0 (some (Except.ok [sampleRaw]))).get ⟨k, h2⟩).featured = k) :=
  claim9_loader 0 () [sampleRaw]

/- ============================================================
   C8: clear-all
   ============================================================ -/

def baseProduct : Product :=
  { id := "p1", handle := "p1", name := "P", vendor := "", url := "",
    price := 10, comparePrice := Option.none, available := true, image := "",
    imageAlt := Option.none, rawTags := [], parsedTags := [], type := "",
    createdAt := Option.none, variants := [], featured := 0, badge := Badge.none }

/-- C8, counterexample. The claim asserts `highlightProduct` keeps its
prior value across the clear-all action; but `clearAllFilters` runs
`update()`, whose `renderGrid` nulls a pending highlight whenever it
renders a non-empty grid. -/
theorem claim8_counterexample :
    (clearAllFilters true [baseProduct]
        { activeFilters := [("Industry", ["Welding"])], sort := "price-asc",
          collection := some "welding", highlightProduct := some "p1",
          currentPage := 3 }).highlightProduct ≠ some "p1" := by
  decide

/-- C8, amended. Clear-all empties `activeFilters`, clears `collection`,
resets `currentPage` to 1 and leaves `sort` exactly as before; the field
resets leave `highlightProduct` alone, but the re-render that clear-all
triggers consumes a pending highlight whenever a non-empty grid is
rendered (grid container present and catalog non-empty). -/
theorem claim8_clearAll (gridPresent : Bool) (catalog : List Product) (st : AppState) :
    (clearAllFilters gridPresent catalog st).activeFilters = [] ∧
      (clearAllFilters gridPresent catalog st).collection = Option.none ∧
      (clearAllFilters gridPresent catalog st).currentPage = 1 ∧
      (clearAllFilters gridPresent catalog st).sort = st.sort ∧
      (clearAllFilters gridPresent catalog st).highlightProduct =
        (if gridPresent = true ∧ catalog ≠ [] then Option.none
         else st.highlightProduct) := by
  have hfp : filterProducts catalog [] = catalog := rfl
  have hlen : (sortProducts catalog st.sort).length = catalog.length :=
    (stableSort_perm _ catalog).length_eq
  unfold clearAllFilters renderGridStateEffect
  rw [hfp]
  cases gridPresent with
  | false => simp
  | true =>
    by_cases hc : catalog = []
    · subst hc
      simp [sortProducts, stableSort]
    · have hnil : sortProducts catalog st.sort ≠ [] := by
        intro h0
        rw [h0] at hlen
        exact hc (List.eq_nil_of_length_eq_zero hlen.symm)
      have hne : (sortProducts catalog st.sort).isEmpty = false := by
        cases hS : sortProducts catalog st.sort with
        | nil => exact absurd hS hnil
        | cons a t => rfl
      simp only [Bool.not_true, Bool.false_eq_true, if_false, hne, hc, ne_eq,
        not_false_eq_true, and_true, if_true]
      cases hh : st.highlightProduct <;> simp [hh]

/- ============================================================
   C5: badge derivation
   ============================================================ -/

def zeroCompareRaw : RawEntry :=
  { id := "z", handle := "z", name := "Z", vendor := Option.none, url := Option.none,
    price := -5, comparePrice := some 0, available := true, image := Option.none,
    imageAlt := Option.none, tags := Option.none, type := Option.none,
    createdAt := Option.none, variants := Option.none }

/-- C5, counterexample. The claim says the badge is `sale` whenever
`comparePrice` is present and strictly greater than `price`; but the
code guards with JS truthiness (`p.comparePrice && ...`), so a present
`comparePrice` of `0` exceeding a negative `price` yields no `sale`. -/
theorem claim5_counterexample :
    zeroCompareRaw.comparePrice = some 0 ∧ (0 : Int) > zeroCompareRaw.price ∧
      getBadge 0 zeroCompareRaw ≠ Badge.sale := by
  refine ⟨rfl, by decide, by decide⟩

/-- C5, amended. The badge is always one of `sale`, `new`, `none`:
`sale` iff `comparePrice` is present, truthy (non-zero) and strictly
greater than `price`; else `new` iff `createdAt` parses to an instant
strictly after 30 days before now (exactly 30 days old is not new);
else `none`. -/
theorem claim5_badge (now : Int) (p : RawEntry) :
    ((getBadge now p = Badge.sale) ↔
        (∃ cp, p.comparePrice = some cp ∧ cp ≠ 0 ∧ cp > p.price)) ∧
      ((getBadge now p = Badge.new) ↔
        (¬ (∃ cp, p.comparePrice = some cp ∧ cp ≠ 0 ∧ cp > p.price) ∧
          ∃ t, p.createdAt = some t ∧ t > now - THIRTY_DAYS_MS)) ∧
      ((getBadge now p = Badge.none) ↔
        (¬ (∃ cp, p.comparePrice = some cp ∧ cp ≠ 0 ∧ cp > p.price) ∧
          ¬ ∃ t, p.createdAt = some t ∧ t > now - THIRTY_DAYS_MS)) := by
  have hsale : (jsTruthyInt p.comparePrice && decide (p.comparePrice.getD 0 > p.price)) = true ↔
      (∃ cp, p.comparePrice = some cp ∧ cp ≠ 0 ∧ cp > p.price) := by
    cases hcp : p.comparePrice with
    | none => simp [jsTruthyInt]
    | some cp =>
      simp only [jsTruthyInt, Option.getD_some, Bool.and_eq_true, decide_eq_true_eq]
      constructor
      · rintro ⟨h1, h2⟩
        exact ⟨cp, rfl, h1, h2⟩
      · rintro ⟨cp2, heq, h1, h2⟩
        cases hcx : Option.some cp with
        | none => simp at hcx
        | some q => simp_all
  unfold getBadge
  by_cases hs : (jsTruthyInt p.comparePrice && decide (p.comparePrice.getD 0 > p.price)) = true
  · rw [hs]
    simp only [if_true]
    refine ⟨by simp [hsale.mp hs], ?_, ?_⟩
    · simp only [show (Badge.sale = Badge.new) = False by simp, false_iff]
      rintro ⟨hno, _⟩
      exact hno (hsale.mp hs)
    · simp only [show (Badge.sale = Badge.none) = False by simp, false_iff]
      rintro ⟨hno, _⟩
      exact hno (hsale.mp hs)
  · have hs2 : (jsTruthyInt p.comparePrice && decide (p.comparePrice.getD 0 > p.price)) = false := by
      simpa using hs
    rw [hs2]
    simp only [Bool.false_eq_true, if_false]
    have hnosale : ¬ (∃ cp, p.comparePrice = some cp ∧ cp ≠ 0 ∧ cp > p.price) := by
      intro hx
      exact hs (hsale.mpr hx)
    cases hca : p.createdAt with
    | none =>
      refine ⟨?_, ?_, ?_⟩
      · simp only [show (Badge.none = Badge.sale) = False by simp, false_iff]
        exact hnosale
      · simp only [show (Badge.none = Badge.new) = False by simp, false_iff]
        rintro ⟨_, t, ht, _⟩
        simp at ht
      · simp only [show (Badge.none = Badge.none) = True by simp, true_iff]
        refine ⟨hnosale, ?_⟩
        rintro ⟨t, ht, _⟩
        simp at ht
    | some created =>
      by_cases hn : created > now - THIRTY_DAYS_MS
      · simp only [hn, if_true]
        refine ⟨?_, ?_, ?_⟩
        · simp only [show (Badge.new = Badge.sale) = False by simp, false_iff]
          exact hnosale
        · simp only [show (Badge.new = Badge.new) = True by simp, true_iff]
          exact ⟨hnosale, created, rfl, hn⟩
        · simp only [show (Badge.new = Badge.none) = False by simp, false_iff]
          rintro ⟨_, hno⟩
          exact hno ⟨created, rfl, hn⟩
      · simp only [hn, if_false]
        refine ⟨?_, ?_, ?_⟩
        · simp only [show (Badge.none = Badge.sale) = False by simp, false_iff]
          exact hnosale
        · simp only [show (Badge.none = Badge.new) = False by simp, false_iff]
          rintro ⟨_, t, ht, htg⟩
          rw [Option.some_inj] at ht
          subst ht
          exact hn htg
        · simp only [show (Badge.none = Badge.none) = True by simp, true_iff]
          refine ⟨hnosale, ?_⟩
          rintro ⟨t, ht, htg⟩
          rw [Option.some_inj] at ht
          subst ht
          exact hn htg

theorem claim5_badge_witness :
    ((getBadge 0 sampleRaw = Badge.sale) ↔
        (∃ cp, sampleRaw.comparePrice = some cp ∧ cp ≠ 0 ∧ cp > sampleRaw.price)) ∧
      ((getBadge 0 sampleRaw = Badge.new) ↔
        (¬ (∃ cp, sampleRaw.comparePrice = some cp ∧ cp ≠ 0 ∧ cp > sampleRaw.price) ∧
          ∃ t, sampleRaw.createdAt = some t ∧ t > 0 - THIRTY_DAYS_MS)) ∧
      ((getBadge 0 sampleRaw = Badge.none) ↔
        (¬ (∃ cp, sampleRaw.comparePrice = some cp ∧ cp ≠ 0 ∧ cp > sampleRaw.price) ∧
          ¬ ∃ t, sampleRaw.createdAt = some t ∧ t > 0 - THIRTY_DAYS_MS)) :=
  claim5_badge 0 sampleRaw

/- ============================================================
   C3 / C4: sortProducts
   ============================================================ -/

theorem sortCmp_priceAsc : sortCmp "price-asc" = fun a b => a.price - b.price := rfl

theorem sortCmp_priceDesc : sortCmp "price-desc" = fun a b => b.price - a.price := rfl

theorem sortCmp_newest : sortCmp "newest" = newestCmp := rfl

theorem sortCmp_bestSelling :
    sortCmp "best-selling" = fun a b => (a.featured : Int) - (b.featured : Int) := rfl

theorem sortCmp_featured :
    sortCmp "featured" = fun a b => (a.featured : Int) - (b.featured : Int) := rfl

theorem sortCmp_default (k : String) (h1 : k ≠ "price-asc") (h2 : k ≠ "price-desc")
    (h3 : k ≠ "newest") (h4 : k ≠ "best-selling") :
    sortCmp k = fun a b => (a.featured : Int) - (b.featured : Int) := by
  unfold sortCmp
  rw [if_neg h1, if_neg h2, if_neg h3, if_neg h4]

theorem sortProducts_key (l : List Product) (k : String) (f : Product → Int)
    (hk : ∀ a b, sortCmp k a b = f a - f b) :
    sortProducts l k = stableSort (fun x y => decide (f x ≤ f y)) l := by
  unfold sortProducts
  have hle : (fun a b => decide (sortCmp k a b ≤ 0)) =
      fun x y => decide (f x ≤ f y) := by
    funext x y
    rw [hk x y]
    exact decide_eq_decide.mpr sub_nonpos
  rw [hle]

theorem sortProducts_perm (l : List Product) (k : String) :
    (sortProducts l k).Perm l :=
  stableSort_perm _ l

/-- Stability of `sortProducts` for a key whose comparator is the
difference of `f`, phrased on an arbitrary predicate equivalent to
`f · = v`. -/
theorem sortProducts_filter_key (l : List Product) (k : String) (f : Product → Int)
    (hk : ∀ a b, sortCmp k a b = f a - f b) (v : Int) (q : Product → Bool)
    (hq : ∀ p, q p = decide (f p = v)) :
    (sortProducts l k).filter q = l.filter q := by
  have hqe : q = fun p => decide (f p = v) := funext hq
  rw [sortProducts_key l k f hk, hqe]
  exact filter_stableSort f l v

/-- C4. For every sort key `sortProducts` returns a permutation of its
input (a fresh sequence; the input list value is untouched), and the
sort is stable: products tied under the selected comparator keep their
relative input order — phrased per key through the preserved relative
order of every equal-key class (`newest` requires the timestamps of the
list to parse, since unparseable dates tie with everything). -/
theorem claim4_sortProducts (l : List Product) (k : String) :
    (sortProducts l k).Perm l ∧
      (∀ v : Int, (sortProducts l "price-asc").filter (fun p => decide (p.price = v)) =
        l.filter (fun p => decide (p.price = v))) ∧
      (∀ v : Int, (sortProducts l "price-desc").filter (fun p => decide (p.price = v)) =
        l.filter (fun p => decide (p.price = v))) ∧
      (∀ v : Int, (sortProducts l "featured").filter
          (fun p => decide ((p.featured : Int) = v)) =
        l.filter (fun p => decide ((p.featured : Int) = v))) ∧
      (∀ v : Int, (sortProducts l "best-selling").filter
          (fun p => decide ((p.featured : Int) = v)) =
        l.filter (fun p => decide ((p.featured : Int) = v))) ∧
      (k ≠ "price-asc" → k ≠ "price-desc" → k ≠ "newest" → k ≠ "best-selling" →
        ∀ v : Int, (sortProducts l k).filter (fun p => decide ((p.featured : Int) = v)) =
          l.filter (fun p => decide ((p.featured : Int) = v))) ∧
      ((∀ p ∈ l, p.createdAt.isSome = true) →
        ∀ v : Int, (sortProducts l "newest").filter
            (fun p => decide (p.createdAt.getD 0 = v)) =
          l.filter (fun p => decide (p.createdAt.getD 0 = v))) := by
  refine ⟨sortProducts_perm l k, ?_, ?_, ?_, ?_, ?_, ?_⟩
  · intro v
    exact sortProducts_filter_key l "price-asc" (fun p => p.price)
      (by intro a b; rw [sortCmp_priceAsc]) v _ (fun p => rfl)
  · intro v
    refine sortProducts_filter_key l "price-desc" (fun p => -p.price)
      (by intro a b; rw [sortCmp_priceDesc]; ring) (-v) _ (fun p => ?_)
    exact decide_eq_decide.mpr (by simp)
  · intro v
    exact sortProducts_filter_key l "featured" (fun p => (p.featured : Int))
      (by intro a b; rw [sortCmp_featured]) v _ (fun p => rfl)
  · intro v
    exact sortProducts_filter_key l "best-selling" (fun p => (p.featured : Int))
      (by intro a b; rw [sortCmp_bestSelling]) v _ (fun p => rfl)
  · intro h1 h2 h3 h4 v
    exact sortProducts_filter_key l k (fun p => (p.featured : Int))
      (by intro a b; rw [sortCmp_default k h1 h2 h3 h4]) v _ (fun p => rfl)
  · intro hall v
    have hcongr : stableSort (fun a b => decide (sortCmp "newest" a b ≤ 0)) l =
        stableSort (fun x y =>
          decide ((-(x.createdAt.getD 0) : Int) ≤ -(y.createdAt.getD 0))) l := by
      refine stableSort_congr _ _ l (fun x hx y hy => ?_)
      rcases Option.isSome_iff_exists.mp (hall x hx) with ⟨tx, hxc⟩
      rcases Option.isSome_iff_exists.mp (hall y hy) with ⟨ty, hyc⟩
      rw [sortCmp_newest]
      unfold newestCmp
      rw [hxc, hyc]
      simp only [Option.getD_some]
      exact decide_eq_decide.mpr (by omega)
    show (stableSort (fun a b => decide (sortCmp "newest" a b ≤ 0)) l).filter _ = _
    rw [hcongr]
    have hfs := filter_stableSort (fun p : Product => -(p.createdAt.getD 0)) l (-v)
    have hqe : (fun p : Product => decide (-(p.createdAt.getD 0) = -v)) =
        fun p : Product => decide (p.createdAt.getD 0 = v) := by
      funext p
      exact decide_eq_decide.mpr (by simp)
    rw [hqe] at hfs
    exact hfs

def pNoDate : Product :=
  { baseProduct with id := "nd", createdAt := Option.none }

def pDated : Product :=
  { baseProduct with id := "d", createdAt := some 5 }

theorem claim4_sortProducts_witness :
    (sortProducts [pDated] "xyz").Perm [pDated] ∧
      ((sortProducts [pDated] "price-asc").filter (fun p => decide (p.price = 10)) =
        [pDated].filter (fun p => decide (p.price = 10))) ∧
      ((sortProducts [pDated] "newest").filter
          (fun p => decide (p.createdAt.getD 0 = 5)) =
        [pDated].filter (fun p => decide (p.createdAt.getD 0 = 5))) :=
  ⟨(claim4_sortProducts [pDated] "xyz").1,
   (claim4_sortProducts [pDated] "xyz").2.1 10,
   (claim4_sortProducts [pDated] "xyz").2.2.2.2.2.2 (by decide) 5⟩

/-- C3, counterexample. The claim says a product with a missing or
unparseable `createdAt` is treated as epoch 0 under `newest` and so
appears after every product with a parseable timestamp; but the JS
comparator returns NaN for such a product, which the sort coerces to a
tie, so the date-less product stays put — here it stays in front of a
dated product, and the result is not descending by parsed-else-0
timestamp. -/
theorem claim3_counterexample :
    pNoDate.createdAt = Option.none ∧ pDated.createdAt = some 5 ∧
      sortProducts [pNoDate, pDated] "newest" = [pNoDate, pDated] ∧
      ¬ (sortProducts [pNoDate, pDated] "newest").Pairwise
          (fun a b => b.createdAt.getD 0 ≤ a.createdAt.getD 0) := by
  refine ⟨rfl, rfl, by decide, by decide⟩

/-- C3, amended. Under `newest`, when every product of the list has a
parseable `createdAt`, the result is the stable permutation ordered by
descending parsed timestamp; a product with a missing or unparseable
`createdAt` compares as a tie with every product (the comparator yields
NaN, coerced to 0), so in particular a list of date-less products is
returned in input order — such products do not sink to the end as
epoch 0 would. -/
theorem claim3_sortNewest (l : List Product) :
    ((∀ p ∈ l, p.createdAt.isSome = true) →
      ((sortProducts l "newest").Perm l ∧
        (sortProducts l "newest").Pairwise
          (fun a b => b.createdAt.getD 0 ≤ a.createdAt.getD 0))) ∧
      ((∀ p ∈ l, p.createdAt = Option.none) → sortProducts l "newest" = l) := by
  constructor
  · intro hall
    refine ⟨sortProducts_perm l "newest", ?_⟩
    have hcongr : stableSort (fun a b => decide (sortCmp "newest" a b ≤ 0)) l =
        stableSort (fun x y =>
          decide ((-(x.createdAt.getD 0) : Int) ≤ -(y.createdAt.getD 0))) l := by
      refine stableSort_congr _ _ l (fun x hx y hy => ?_)
      rcases Option.isSome_iff_exists.mp (hall x hx) with ⟨tx, hxc⟩
      rcases Option.isSome_iff_exists.mp (hall y hy) with ⟨ty, hyc⟩
      rw [sortCmp_newest]
      unfold newestCmp
      rw [hxc, hyc]
      simp only [Option.getD_some]
      exact decide_eq_decide.mpr (by omega)
    show (stableSort (fun a b => decide (sortCmp "newest" a b ≤ 0)) l).Pairwise _
    rw [hcongr]
    have hp := pairwise_stableSort
      (fun x y : Product => decide ((-(x.createdAt.getD 0) : Int) ≤ -(y.createdAt.getD 0)))
      (by intro a b h; simp at h ⊢; omega)
      (by intro a b c h1 h2; simp at h1 h2 ⊢; omega) l
    refine hp.imp ?_
    intro a b h
    simp only [decide_eq_true_eq] at h
    omega
  · intro hall
    show stableSort (fun a b => decide (sortCmp "newest" a b ≤ 0)) l = l
    refine stableSort_of_all_le _ l (fun x hx y hy => ?_)
    rw [sortCmp_newest]
    unfold newestCmp
    rw [hall x hx, hall y hy]
    simp

theorem claim3_sortNewest_witness :
    ((sortProducts [pDated] "newest").Perm [pDated] ∧
      (sortProducts [pDated] "newest").Pairwise
        (fun a b => b.createdAt.getD 0 ≤ a.createdAt.getD 0)) ∧
      sortProducts [pNoDate] "newest" = [pNoDate] :=
  ⟨(claim3_sortNewest [pDated]).1 (by decide),
   (claim3_sortNewest [pNoDate]).2 (by decide)⟩

/- ============================================================
   C6: taxonomy builder — category map characterization
   ============================================================ -/

theorem lookupCat_nil (c : String) : lookupCat [] c = Option.none := rfl

theorem lookupCat_cons (e : String × List String) (rest : List (String × List String))
    (c : String) :
    lookupCat (e :: rest) c = if e.1 = c then some e.2 else lookupCat rest c := by
  by_cases h : e.1 = c
  · rw [if_pos h]
    unfold lookupCat
    rw [List.find?_cons_of_pos _ (by simpa using h)]
    rfl
  · rw [if_neg h]
    unfold lookupCat
    rw [List.find?_cons_of_neg _ (by simpa using h)]

theorem lookupCat_isSome_iff_mem (m : List (String × List String)) (c : String) :
    (lookupCat m c).isSome = true ↔ c ∈ m.map Prod.fst := by
  induction m with
  | nil => simp [lookupCat_nil]
  | cons e rest ih =>
    rw [lookupCat_cons]
    by_cases h : e.1 = c
    · simp [h]
    · simp only [h, if_false, List.map_cons, List.mem_cons, ih]
      constructor
      · intro hx
        exact Or.inr hx
      · rintro (hx | hx)
        · exact absurd hx.symm h
        · exact hx

theorem mem_addValueOnce (vs : List String) (w x : String) :
    x ∈ addValueOnce vs w ↔ x ∈ vs ∨ x = w := by
  unfold addValueOnce
  by_cases h : vs.contains w = true
  · have hw : w ∈ vs := by simpa using h
    rw [if_pos h]
    constructor
    · exact Or.inl
    · rintro (hx | hx)
      · exact hx
      · rw [hx]; exact hw
  · rw [if_neg h]
    simp

theorem nodup_addValueOnce (vs : List String) (w : String) (h : vs.Nodup) :
    (addValueOnce vs w).Nodup := by
  unfold addValueOnce
  by_cases hc : vs.contains w = true
  · rw [if_pos hc]
    exact h
  · have hw : ¬ w ∈ vs := by simpa using hc
    rw [if_neg hc, List.nodup_append]
    refine ⟨h, List.nodup_singleton w, fun a ha haw => ?_⟩
    have haw2 : a = w := by simpa using haw
    exact hw (haw2 ▸ ha)

theorem mem_foldl_addValueOnce (vs ws : List String) (x : String) :
    x ∈ vs.foldl addValueOnce ws ↔ x ∈ ws ∨ x ∈ vs := by
  induction vs generalizing ws with
  | nil => simp
  | cons v t ih =>
    rw [List.foldl_cons, ih, mem_addValueOnce]
    constructor
    · rintro ((hx | hx) | hx)
      · exact Or.inl hx
      · exact Or.inr (by simp [hx])
      · exact Or.inr (by simp [hx])
    · rintro (hx | hx)
      · exact Or.inl (Or.inl hx)
      · rcases List.mem_cons.mp hx with hx | hx
        · exact Or.inl (Or.inr hx)
        · exact Or.inr hx

theorem nodup_foldl_addValueOnce (vs ws : List String) (h : ws.Nodup) :
    (vs.foldl addValueOnce ws).Nodup := by
  induction vs generalizing ws with
  | nil => simpa
  | cons v t ih => exact ih (addValueOnce ws v) (nodup_addValueOnce ws v h)

theorem lookupCat_ensureEntry_self (c : String) (m : List (String × List String)) :
    lookupCat (ensureEntry c m) c = some ((lookupCat m c).getD []) := by
  induction m with
  | nil => simp [ensureEntry, lookupCat_cons, lookupCat_nil]
  | cons e rest ih =>
    unfold ensureEntry
    by_cases h : e.1 = c
    · simp [h, lookupCat_cons]
    · simp [h, lookupCat_cons, ih]

theorem lookupCat_ensureEntry_other (c k : String) (m : List (String × List String))
    (h : k ≠ c) : lookupCat (ensureEntry c m) k = lookupCat m k := by
  have hck : ¬ c = k := fun hh => h hh.symm
  induction m with
  | nil => simp [ensureEntry, lookupCat_cons, lookupCat_nil, hck]
  | cons e rest ih =>
    unfold ensureEntry
    by_cases he : e.1 = c
    · simp [he]
    · by_cases hek : e.1 = k <;> simp [he, hek, lookupCat_cons, ih, h, hck]

theorem keys_ensureEntry (c : String) (m : List (String × List String)) :
    (ensureEntry c m).map Prod.fst =
      if c ∈ m.map Prod.fst then m.map Prod.fst else m.map Prod.fst ++ [c] := by
  induction m with
  | nil => simp [ensureEntry]
  | cons e rest ih =>
    unfold ensureEntry
    by_cases h : e.1 = c
    · simp [h]
    · have hne : ¬ c = e.1 := fun hh => h hh.symm
      simp only [h, if_false, List.map_cons, ih]
      by_cases hm : c ∈ rest.map Prod.fst
      · simp [hm, hne]
      · simp [hm, hne]

theorem lookupCat_bumpEntry_self (c v : String) (m : List (String × List String)) :
    lookupCat (bumpEntry c v m) c =
      some (addValueOnce ((lookupCat m c).getD []) v) := by
  induction m with
  | nil => simp [bumpEntry, lookupCat_cons, lookupCat_nil, addValueOnce]
  | cons e rest ih =>
    unfold bumpEntry
    by_cases h : e.1 = c
    · simp [h, lookupCat_cons]
    · simp [h, lookupCat_cons, ih]

theorem lookupCat_bumpEntry_other (c v k : String) (m : List (String × List String))
    (h : k ≠ c) : lookupCat (bumpEntry c v m) k = lookupCat m k := by
  have hck : ¬ c = k := fun hh => h hh.symm
  induction m with
  | nil => simp [bumpEntry, lookupCat_cons, lookupCat_nil, hck]
  | cons e rest ih =>
    unfold bumpEntry
    by_cases he : e.1 = c
    · have hek : ¬ e.1 = k := fun hh => h (hh ▸ he)
      simp [he, hek, lookupCat_cons, h, hck]
    · by_cases hek : e.1 = k <;> simp [he, hek, lookupCat_cons, ih, h, hck]

theorem keys_bumpEntry (c v : String) (m : List (String × List String)) :
    (bumpEntry c v m).map Prod.fst =
      if c ∈ m.map Prod.fst then m.map Prod.fst else m.map Prod.fst ++ [c] := by
  induction m with
  | nil => simp [bumpEntry]
  | cons e rest ih =>
    unfold bumpEntry
    by_cases h : e.1 = c
    · simp [h]
    · have hne : ¬ c = e.1 := fun hh => h hh.symm
      simp only [h, if_false, List.map_cons, ih]
      by_cases hm : c ∈ rest.map Prod.fst
      · simp [hm, hne]
      · simp [hm, hne]

theorem lookupCat_addValues_self (c : String) (vs : List String)
    (m : List (String × List String)) (ws : List String)
    (h : lookupCat m c = some ws) :
    lookupCat (addValues c m vs) c = some (vs.foldl addValueOnce ws) := by
  induction vs generalizing m ws with
  | nil => simpa [addValues]
  | cons v t ih =>
    unfold addValues
    rw [List.foldl_cons]
    refine ih (bumpEntry c v m) (addValueOnce ws v) ?_
    rw [lookupCat_bumpEntry_self, h]
    rfl

theorem lookupCat_addValues_other (c k : String) (vs : List String)
    (m : List (String × List String)) (h : k ≠ c) :
    lookupCat (addValues c m vs) k = lookupCat m k := by
  induction vs generalizing m with
  | nil => rfl
  | cons v t ih =>
    unfold addValues
    rw [ih (bumpEntry c v m), lookupCat_bumpEntry_other c v k m h]

theorem keys_addValues (c : String) (vs : List String)
    (m : List (String × List String)) (h : c ∈ m.map Prod.fst) :
    (addValues c m vs).map Prod.fst = m.map Prod.fst := by
  induction vs generalizing m with
  | nil => rfl
  | cons v t ih =>
    unfold addValues
    rw [ih (bumpEntry c v m) (by rw [keys_bumpEntry, if_pos h]; exact h),
      keys_bumpEntry, if_pos h]

/-- A category occurs (as a key) in some product's `parsedTags`. -/
def keyIn (ps : List Product) (c : String) : Prop :=
  ∃ p ∈ ps, ∃ e ∈ p.parsedTags, e.1 = c

/-- A `(category, value)` pair occurs in some product's `parsedTags`. -/
def pairIn (ps : List Product) (c v : String) : Prop :=
  ∃ p ∈ ps, ∃ e ∈ p.parsedTags, e.1 = c ∧ v ∈ e.2

theorem hidden_contains_iff (c : String) :
    HIDDEN_CATEGORIES.contains c = true ↔ c ∈ HIDDEN_CATEGORIES := by
  simp [HIDDEN_CATEGORIES]

theorem addEntry_isSome (m : List (String × List String)) (e : String × List String)
    (c : String) :
    (lookupCat (addEntry m e) c).isSome = true ↔
      (lookupCat m c).isSome = true ∨ (e.1 = c ∧ ¬ e.1 ∈ HIDDEN_CATEGORIES) := by
  unfold addEntry
  by_cases hh : HIDDEN_CATEGORIES.contains e.1 = true
  · have hmem : e.1 ∈ HIDDEN_CATEGORIES := (hidden_contains_iff e.1).mp hh
    simp [hh, hmem]
  · have hmem : ¬ e.1 ∈ HIDDEN_CATEGORIES := fun hx => hh ((hidden_contains_iff e.1).mpr hx)
    simp only [hh, Bool.false_eq_true, if_false]
    by_cases hc : e.1 = c
    · subst hc
      rw [lookupCat_addValues_self e.1 e.2 _ ((lookupCat m e.1).getD [])
        (lookupCat_ensureEntry_self e.1 m)]
      simp [hmem]
    · have hkc : c ≠ e.1 := fun hx => hc hx.symm
      rw [lookupCat_addValues_other e.1 c e.2 _ hkc,
        lookupCat_ensureEntry_other e.1 c m hkc]
      simp [hc]

theorem addEntry_val (m : List (String × List String)) (e : String × List String)
    (c x : String) :
    (∃ vs, lookupCat (addEntry m e) c = some vs ∧ x ∈ vs) ↔
      ((∃ ws, lookupCat m c = some ws ∧ x ∈ ws) ∨
        (e.1 = c ∧ ¬ e.1 ∈ HIDDEN_CATEGORIES ∧ x ∈ e.2)) := by
  unfold addEntry
  by_cases hh : HIDDEN_CATEGORIES.contains e.1 = true
  · have hmem : e.1 ∈ HIDDEN_CATEGORIES := (hidden_contains_iff e.1).mp hh
    simp [hh, hmem]
  · have hmem : ¬ e.1 ∈ HIDDEN_CATEGORIES := fun hx => hh ((hidden_contains_iff e.1).mpr hx)
    simp only [hh, Bool.false_eq_true, if_false]
    by_cases hc : e.1 = c
    · subst hc
      rw [lookupCat_addValues_self e.1 e.2 _ ((lookupCat m e.1).getD [])
        (lookupCat_ensureEntry_self e.1 m)]
      constructor
      · rintro ⟨vs, hvs, hx⟩
        have hvs2 : vs = e.2.foldl addValueOnce ((lookupCat m e.1).getD []) :=
          (Option.some_inj.mp hvs).symm
        subst hvs2
        rcases (mem_foldl_addValueOnce e.2 _ x).mp hx with hx | hx
        · cases hlm : lookupCat m e.1 with
          | none => rw [hlm] at hx; simp at hx
          | some ws =>
            rw [hlm] at hx
            exact Or.inl ⟨ws, rfl, by simpa using hx⟩
        · exact Or.inr ⟨rfl, hmem, hx⟩
      · rintro (⟨ws, hws, hx⟩ | ⟨_, _, hx⟩)
        · refine ⟨_, rfl, (mem_foldl_addValueOnce e.2 _ x).mpr (Or.inl ?_)⟩
          rw [hws]
          simpa using hx
        · exact ⟨_, rfl, (mem_foldl_addValueOnce e.2 _ x).mpr (Or.inr hx)⟩
    · have hkc : c ≠ e.1 := fun hx => hc hx.symm
      rw [lookupCat_addValues_other e.1 c e.2 _ hkc,
        lookupCat_ensureEntry_other e.1 c m hkc]
      simp [hc]

theorem addEntry_nodup_vals (m : List (String × List String)) (e : String × List String)
    (hm : ∀ c vs, lookupCat m c = some vs → vs.Nodup) :
    ∀ c vs, lookupCat (addEntry m e) c = some vs → vs.Nodup := by
  intro c vs hvs
  unfold addEntry at hvs
  by_cases hh : HIDDEN_CATEGORIES.contains e.1 = true
  · rw [if_pos hh] at hvs
    exact hm c vs hvs
  · rw [if_neg hh] at hvs
    by_cases hc : e.1 = c
    · subst hc
      rw [lookupCat_addValues_self e.1 e.2 _ ((lookupCat m e.1).getD [])
        (lookupCat_ensureEntry_self e.1 m)] at hvs
      have hvs2 : vs = e.2.foldl addValueOnce ((lookupCat m e.1).getD []) :=
        (Option.some_inj.mp hvs).symm
      subst hvs2
      refine nodup_foldl_addValueOnce e.2 _ ?_
      cases hlm : lookupCat m e.1 with
      | none => simp
      | some ws => simpa using hm e.1 ws hlm
    · have hkc : c ≠ e.1 := fun hx => hc hx.symm
      rw [lookupCat_addValues_other e.1 c e.2 _ hkc,
        lookupCat_ensureEntry_other e.1 c m hkc] at hvs
      exact hm c vs hvs

theorem addEntry_keys_nodup (m : List (String × List String)) (e : String × List String)
    (hm : (m.map Prod.fst).Nodup) : ((addEntry m e).map Prod.fst).Nodup := by
  unfold addEntry
  by_cases hh : HIDDEN_CATEGORIES.contains e.1 = true
  · rw [if_pos hh]
    exact hm
  · rw [if_neg hh]
    have hens : e.1 ∈ (ensureEntry e.1 m).map Prod.fst := by
      rw [keys_ensureEntry]
      by_cases hx : e.1 ∈ m.map Prod.fst
      · rw [if_pos hx]; exact hx
      · rw [if_neg hx]; simp
    rw [keys_addValues e.1 e.2 _ hens, keys_ensureEntry]
    by_cases hx : e.1 ∈ m.map Prod.fst
    · rw [if_pos hx]; exact hm
    · rw [if_neg hx]
      rw [List.nodup_append]
      refine ⟨hm, List.nodup_singleton _, fun a ha haw => ?_⟩
      have haw2 : a = e.1 := by simpa using haw
      exact hx (haw2 ▸ ha)

theorem addEntries_isSome (es : List (String × List String))
    (m : List (String × List String)) (c : String) :
    (lookupCat (addEntries m es) c).isSome = true ↔
      (lookupCat m c).isSome = true ∨
        (∃ e ∈ es, e.1 = c ∧ ¬ e.1 ∈ HIDDEN_CATEGORIES) := by
  induction es generalizing m with
  | nil => simp [addEntries]
  | cons e rest ih =>
    show (lookupCat (addEntries (addEntry m e) rest) c).isSome = true ↔ _
    rw [ih (addEntry m e), addEntry_isSome]
    constructor
    · rintro ((hx | hx) | hx)
      · exact Or.inl hx
      · exact Or.inr ⟨e, by simp, hx⟩
      · rcases hx with ⟨e2, he2, hx⟩
        exact Or.inr ⟨e2, by simp [he2], hx⟩
    · rintro (hx | ⟨e2, he2, hx⟩)
      · exact Or.inl (Or.inl hx)
      · rcases List.mem_cons.mp he2 with he2 | he2
        · subst he2
          exact Or.inl (Or.inr hx)
        · exact Or.inr ⟨e2, he2, hx⟩

theorem addEntries_val (es : List (String × List String))
    (m : List (String × List String)) (c x : String) :
    (∃ vs, lookupCat (addEntries m es) c = some vs ∧ x ∈ vs) ↔
      ((∃ ws, lookupCat m c = some ws ∧ x ∈ ws) ∨
        (∃ e ∈ es, e.1 = c ∧ ¬ e.1 ∈ HIDDEN_CATEGORIES ∧ x ∈ e.2)) := by
  induction es generalizing m with
  | nil => simp [addEntries]
  | cons e rest ih =>
    show (∃ vs, lookupCat (addEntries (addEntry m e) rest) c = some vs ∧ x ∈ vs) ↔ _
    rw [ih (addEntry m e), addEntry_val]
    constructor
    · rintro ((hx | hx) | hx)
      · exact Or.inl hx
      · exact Or.inr ⟨e, by simp, hx⟩
      · rcases hx with ⟨e2, he2, hx⟩
        exact Or.inr ⟨e2, by simp [he2], hx⟩
    · rintro (hx | ⟨e2, he2, hx⟩)
      · exact Or.inl (Or.inl hx)
      · rcases List.mem_cons.mp he2 with he2 | he2
        · subst he2
          exact Or.inl (Or.inr hx)
        · exact Or.inr ⟨e2, he2, hx⟩

theorem addEntries_nodup_vals (es : List (String × List String))
    (m : List (String × List String))
    (hm : ∀ c vs, lookupCat m c = some vs → vs.Nodup) :
    ∀ c vs, lookupCat (addEntries m es) c = some vs → vs.Nodup := by
  induction es generalizing m with
  | nil => exact hm
  | cons e rest ih => exact ih (addEntry m e) (addEntry_nodup_vals m e hm)

theorem addEntries_keys_nodup (es : List (String × List String))
    (m : List (String × List String)) (hm : (m.map Prod.fst).Nodup) :
    ((addEntries m es).map Prod.fst).Nodup := by
  induction es generalizing m with
  | nil => exact hm
  | cons e rest ih => exact ih (addEntry m e) (addEntry_keys_nodup m e hm)

theorem categoryMapAux_isSome (ps : List Product)
    (m : List (String × List String)) (c : String) :
    (lookupCat (categoryMapAux m ps) c).isSome = true ↔
      (lookupCat m c).isSome = true ∨
        (∃ p ∈ ps, ∃ e ∈ p.parsedTags, e.1 = c ∧ ¬ e.1 ∈ HIDDEN_CATEGORIES) := by
  induction ps generalizing m with
  | nil => simp [categoryMapAux]
  | cons p rest ih =>
    show (lookupCat (categoryMapAux (addEntries m p.parsedTags) rest) c).isSome = true ↔ _
    rw [ih (addEntries m p.parsedTags), addEntries_isSome]
    constructor
    · rintro ((hx | hx) | hx)
      · exact Or.inl hx
      · exact Or.inr ⟨p, by simp, hx⟩
      · rcases hx with ⟨p2, hp2, hx⟩
        exact Or.inr ⟨p2, by simp [hp2], hx⟩
    · rintro (hx | ⟨p2, hp2, hx⟩)
      · exact Or.inl (Or.inl hx)
      · rcases List.mem_cons.mp hp2 with hp2 | hp2
        · subst hp2
          exact Or.inl (Or.inr hx)
        · exact Or.inr ⟨p2, hp2, hx⟩

theorem categoryMapAux_val (ps : List Product)
    (m : List (String × List String)) (c x : String) :
    (∃ vs, lookupCat (categoryMapAux m ps) c = some vs ∧ x ∈ vs) ↔
      ((∃ ws, lookupCat m c = some ws ∧ x ∈ ws) ∨
        (∃ p ∈ ps, ∃ e ∈ p.parsedTags, e.1 = c ∧ ¬ e.1 ∈ HIDDEN_CATEGORIES ∧ x ∈ e.2)) := by
  induction ps generalizing m with
  | nil => simp [categoryMapAux]
  | cons p rest ih =>
    show (∃ vs, lookupCat (categoryMapAux (addEntries m p.parsedTags) rest) c = some vs ∧ x ∈ vs) ↔ _
    rw [ih (addEntries m p.parsedTags), addEntries_val]
    constructor
    · rintro ((hx | hx) | hx)
      · exact Or.inl hx
      · exact Or.inr ⟨p, by simp, hx⟩
      · rcases hx with ⟨p2, hp2, hx⟩
        exact Or.inr ⟨p2, by simp [hp2], hx⟩
    · rintro (hx | ⟨p2, hp2, hx⟩)
      · exact Or.inl (Or.inl hx)
      · rcases List.mem_cons.mp hp2 with hp2 | hp2
        · subst hp2
          exact Or.inl (Or.inr hx)
        · exact Or.inr ⟨p2, hp2, hx⟩

theorem categoryMap_isSome (ps : List Product) (c : String) :
    (lookupCat (categoryMap ps) c).isSome = true ↔
      (¬ c ∈ HIDDEN_CATEGORIES ∧ keyIn ps c) := by
  unfold categoryMap keyIn
  rw [categoryMapAux_isSome]
  simp only [lookupCat_nil, Option.isSome_none, Bool.false_eq_true, false_or]
  constructor
  · rintro ⟨p, hp, e, he, hec, hmem⟩
    exact ⟨hec ▸ hmem, p, hp, e, he, hec⟩
  · rintro ⟨hc, p, hp, e, he, hec⟩
    exact ⟨p, hp, e, he, hec, hec ▸ hc⟩

theorem categoryMap_val (ps : List Product) (c : String) (vs : List String)
    (h : lookupCat (categoryMap ps) c = some vs) :
    ∀ x, x ∈ vs ↔ pairIn ps c x := by
  intro x
  have hiff := categoryMapAux_val ps [] c x
  unfold categoryMap at h
  rw [h] at hiff
  simp only [lookupCat_nil, Option.some_inj] at hiff
  unfold pairIn
  constructor
  · intro hx
    have := hiff.mp ⟨vs, rfl, hx⟩
    rcases this with ⟨ws, hws, _⟩ | ⟨p, hp, e, he, hec, _, hxe⟩
    · simp at hws
    · exact ⟨p, hp, e, he, hec, hxe⟩
  · rintro ⟨p, hp, e, he, hec, hxe⟩
    have hnh : ¬ e.1 ∈ HIDDEN_CATEGORIES := by
      have hs : (lookupCat (categoryMap ps) c).isSome = true := by
        unfold categoryMap
        rw [h]
        rfl
      have := (categoryMap_isSome ps c).mp hs
      exact hec ▸ this.1
    rcases hiff.mpr (Or.inr ⟨p, hp, e, he, hec, hnh, hxe⟩) with ⟨vs2, hvs2, hx2⟩
    subst hvs2
    exact hx2

theorem categoryMapAux_nodup_vals (ps : List Product)
    (m : List (String × List String))
    (hm : ∀ c vs, lookupCat m c = some vs → vs.Nodup) :
    ∀ c vs, lookupCat (categoryMapAux m ps) c = some vs → vs.Nodup := by
  induction ps generalizing m with
  | nil => exact hm
  | cons p rest ih =>
    exact ih (addEntries m p.parsedTags) (addEntries_nodup_vals p.parsedTags m hm)

theorem categoryMapAux_keys_nodup (ps : List Product)
    (m : List (String × List String)) (hm : (m.map Prod.fst).Nodup) :
    ((categoryMapAux m ps).map Prod.fst).Nodup := by
  induction ps generalizing m with
  | nil => exact hm
  | cons p rest ih =>
    exact ih (addEntries m p.parsedTags) (addEntries_keys_nodup p.parsedTags m hm)

theorem categoryMap_nodup_vals (ps : List Product) :
    ∀ c vs, lookupCat (categoryMap ps) c = some vs → vs.Nodup :=
  categoryMapAux_nodup_vals ps []
    (by intro c vs h; simp [lookupCat_nil] at h)

theorem categoryMap_keys_nodup (ps : List Product) :
    ((categoryMap ps).map Prod.fst).Nodup :=
  categoryMapAux_keys_nodup ps [] (by simp)

theorem mem_sortStrings (x : String) (l : List String) : x ∈ sortStrings l ↔ x ∈ l :=
  mem_stableSort _ x l

theorem pairwise_le_sortStrings (l : List String) :
    (sortStrings l).Pairwise (fun a b => a ≤ b) := by
  have h := pairwise_stableSort (fun a b : String => decide (a ≤ b))
    (by
      intro a b hab
      have hab2 : ¬ a ≤ b := by simpa using hab
      simpa using le_of_not_le hab2)
    (by
      intro a b c h1 h2
      have h1b : a ≤ b := by simpa using h1
      have h2b : b ≤ c := by simpa using h2
      simpa using le_trans h1b h2b) l
  exact h.imp (fun hx => by simpa using hx)

theorem nodup_sortStrings (l : List String) (h : l.Nodup) : (sortStrings l).Nodup :=
  ((stableSort_perm _ l).nodup_iff).mpr h

theorem pairwise_lt_sortStrings (l : List String) (h : l.Nodup) :
    (sortStrings l).Pairwise (fun a b => a < b) := by
  have h1 := pairwise_le_sortStrings l
  have h2 : (sortStrings l).Pairwise (fun a b : String => a ≠ b) := nodup_sortStrings l h
  exact (h1.and h2).imp (fun hx => lt_of_le_of_ne hx.1 hx.2)

theorem contains_iff_mem_str (l : List String) (c : String) :
    l.contains c = true ↔ c ∈ l := by
  induction l with
  | nil => simp
  | cons a t ih => simp

theorem map_key_filterMap (m : List (String × List String)) (l : List String) :
    ((l.filterMap (fun c => (lookupCat m c).map (mkGroup c))).map FilterGroup.key) =
      l.filter (fun c => (lookupCat m c).isSome) := by
  induction l with
  | nil => rfl
  | cons c t ih =>
    cases hl : lookupCat m c with
    | none => simp [List.filterMap_cons, hl, List.filter_cons, ih]
    | some vs => simp [List.filterMap_cons, hl, List.filter_cons, ih, mkGroup]

theorem mem_groups_filterMap (m : List (String × List String)) (l : List String)
    (g : FilterGroup) :
    g ∈ l.filterMap (fun c => (lookupCat m c).map (mkGroup c)) ↔
      ∃ c ∈ l, ∃ vs, lookupCat m c = some vs ∧ g = mkGroup c vs := by
  rw [List.mem_filterMap]
  constructor
  · rintro ⟨c, hc, hg⟩
    cases hl : lookupCat m c with
    | none => rw [hl] at hg; simp at hg
    | some vs =>
      rw [hl] at hg
      simp only [Option.map_some', Option.some_inj] at hg
      exact ⟨c, hc, vs, hl, hg.symm⟩
  · rintro ⟨c, hc, vs, hvs, hg⟩
    refine ⟨c, hc, ?_⟩
    rw [hvs, hg]
    rfl

theorem buildFilterGroups_split (ps : List Product) :
    buildFilterGroups ps =
      PREFERRED_ORDER.filterMap
          (fun c => (lookupCat (categoryMap ps) c).map (mkGroup c)) ++
        ((sortStrings ((categoryMap ps).map Prod.fst)).filter
            (fun c => !(PREFERRED_ORDER.filter
              (fun c2 => (lookupCat (categoryMap ps) c2).isSome)).contains c)).filterMap
          (fun c => (lookupCat (categoryMap ps) c).map (mkGroup c)) := rfl

theorem buildFilterGroups_keys (ps : List Product) :
    (buildFilterGroups ps).map FilterGroup.key =
      PREFERRED_ORDER.filter (fun c => (lookupCat (categoryMap ps) c).isSome) ++
        (sortStrings ((categoryMap ps).map Prod.fst)).filter
          (fun c => !(PREFERRED_ORDER.filter
            (fun c2 => (lookupCat (categoryMap ps) c2).isSome)).contains c) := by
  rw [buildFilterGroups_split, List.map_append, map_key_filterMap, map_key_filterMap]
  congr 1
  refine List.filter_eq_self.mpr (fun c hc => ?_)
  rcases List.mem_filter.mp hc with ⟨hc1, _⟩
  exact (lookupCat_isSome_iff_mem _ c).mpr ((mem_sortStrings c _).mp hc1)

theorem mem_buildFilterGroups (ps : List Product) (g : FilterGroup)
    (h : g ∈ buildFilterGroups ps) :
    ∃ vs, lookupCat (categoryMap ps) g.key = some vs ∧ g = mkGroup g.key vs := by
  rw [buildFilterGroups_split] at h
  rcases List.mem_append.mp h with h | h <;>
    rcases (mem_groups_filterMap _ _ g).mp h with ⟨c, _, vs, hvs, hg⟩ <;>
    (subst hg; exact ⟨vs, hvs, rfl⟩)

theorem buildFilterGroups_of_lookup (ps : List Product) (c : String) (vs : List String)
    (h : lookupCat (categoryMap ps) c = some vs) :
    mkGroup c vs ∈ buildFilterGroups ps := by
  rw [buildFilterGroups_split]
  rw [List.mem_append]
  by_cases hp : c ∈ PREFERRED_ORDER
  · exact Or.inl ((mem_groups_filterMap _ _ _).mpr ⟨c, hp, vs, h, rfl⟩)
  · refine Or.inr ((mem_groups_filterMap _ _ _).mpr ⟨c, ?_, vs, h, rfl⟩)
    refine List.mem_filter.mpr ⟨?_, ?_⟩
    · refine (mem_sortStrings c _).mpr ?_
      refine (lookupCat_isSome_iff_mem _ c).mp ?_
      rw [h]
      rfl
    · have hcu : ¬ c ∈ PREFERRED_ORDER.filter
          (fun c2 => (lookupCat (categoryMap ps) c2).isSome) := by
        intro hx
        exact hp (List.mem_filter.mp hx).1
      simp [contains_iff_mem_str, hcu]

instance (ps : List Product) (c : String) : Decidable (keyIn ps c) := by
  unfold keyIn
  infer_instance

instance (ps : List Product) (c v : String) : Decidable (pairIn ps c v) := by
  unfold pairIn
  infer_instance

theorem contains_eq_false_str (l : List String) (c : String) (h : ¬ c ∈ l) :
    l.contains c = false := by
  cases hx : l.contains c
  · rfl
  · exact absurd ((contains_iff_mem_str l c).mp hx) h

/-- C6. The taxonomy builder emits exactly one group per non-hidden
category occurring in some product's `parsedTags`; preferred categories
come first in the fixed order, the remaining ones after them in
ascending lexical order; each group's values are the ascending sorted
deduplicated values seen under its category; and the `(key, value)`
pairs of the groups are exactly the non-hidden `(category, value)`
pairs of the catalog. -/
theorem claim6_buildFilterGroups (ps : List Product) :
    ((buildFilterGroups ps).map FilterGroup.key).Nodup ∧
      (∀ k, k ∈ (buildFilterGroups ps).map FilterGroup.key ↔
        (¬ k ∈ HIDDEN_CATEGORIES ∧ keyIn ps k)) ∧
      (∃ rest, (buildFilterGroups ps).map FilterGroup.key =
          PREFERRED_ORDER.filter (fun c => decide (keyIn ps c)) ++ rest ∧
        rest.Pairwise (fun a b => a < b) ∧ (∀ k ∈ rest, ¬ k ∈ PREFERRED_ORDER)) ∧
      (∀ g ∈ buildFilterGroups ps, g.values.Pairwise (fun a b => a < b) ∧
        (∀ v, v ∈ g.values ↔ pairIn ps g.key v)) ∧
      (∀ k v, (∃ g ∈ buildFilterGroups ps, g.key = k ∧ v ∈ g.values) ↔
        (¬ k ∈ HIDDEN_CATEGORIES ∧ pairIn ps k v)) := by
  have hOther : ∀ c ∈ PREFERRED_ORDER, ¬ c ∈ HIDDEN_CATEGORIES := by decide
  have hPrefNodup : PREFERRED_ORDER.Nodup := by decide
  refine ⟨?_, ?_, ?_, ?_, ?_⟩
  · rw [buildFilterGroups_keys, List.nodup_append]
    refine ⟨hPrefNodup.filter _,
      (nodup_sortStrings _ (categoryMap_keys_nodup ps)).filter _, ?_⟩
    intro a ha hb
    rcases List.mem_filter.mp hb with ⟨_, hbc⟩
    rw [(contains_iff_mem_str _ a).mpr ha] at hbc
    simp at hbc
  · intro k
    rw [buildFilterGroups_keys, List.mem_append]
    constructor
    · rintro (hk | hk)
      · rcases List.mem_filter.mp hk with ⟨_, hsome⟩
        exact (categoryMap_isSome ps k).mp hsome
      · rcases List.mem_filter.mp hk with ⟨hsorted, _⟩
        refine (categoryMap_isSome ps k).mp ?_
        exact (lookupCat_isSome_iff_mem _ k).mpr ((mem_sortStrings k _).mp hsorted)
    · rintro ⟨hkH, hkey⟩
      have hsome := (categoryMap_isSome ps k).mpr ⟨hkH, hkey⟩
      by_cases hp : k ∈ PREFERRED_ORDER
      · exact Or.inl (List.mem_filter.mpr ⟨hp, hsome⟩)
      · refine Or.inr (List.mem_filter.mpr ⟨?_, ?_⟩)
        · exact (mem_sortStrings k _).mpr ((lookupCat_isSome_iff_mem _ k).mp hsome)
        · have hnu : ¬ k ∈ PREFERRED_ORDER.filter
              (fun c2 => (lookupCat (categoryMap ps) c2).isSome) :=
            fun hx => hp (List.mem_filter.mp hx).1
          rw [contains_eq_false_str _ _ hnu]
          rfl
  · refine ⟨(sortStrings ((categoryMap ps).map Prod.fst)).filter
        (fun c => !(PREFERRED_ORDER.filter
          (fun c2 => (lookupCat (categoryMap ps) c2).isSome)).contains c), ?_, ?_, ?_⟩
    · rw [buildFilterGroups_keys]
      congr 1
      refine List.filter_congr (fun c hc => ?_)
      refine bool_ext ?_
      rw [decide_eq_true_eq, categoryMap_isSome]
      constructor
      · rintro ⟨_, hx⟩
        exact hx
      · intro hx
        exact ⟨hOther c hc, hx⟩
    · refine List.Pairwise.sublist (List.filter_sublist _) ?_
      exact pairwise_lt_sortStrings _ (categoryMap_keys_nodup ps)
    · intro k hk
      rcases List.mem_filter.mp hk with ⟨hsorted, hnc⟩
      intro hp
      have hsome : (lookupCat (categoryMap ps) k).isSome = true :=
        (lookupCat_isSome_iff_mem _ k).mpr ((mem_sortStrings k _).mp hsorted)
      have : k ∈ PREFERRED_ORDER.filter
          (fun c2 => (lookupCat (categoryMap ps) c2).isSome) :=
        List.mem_filter.mpr ⟨hp, hsome⟩
      rw [(contains_iff_mem_str _ k).mpr this] at hnc
      simp at hnc
  · intro g hg
    rcases mem_buildFilterGroups ps g hg with ⟨vs, hvs, hgv⟩
    have hval : g.values = sortStrings vs := congrArg FilterGroup.values hgv
    have hnd := categoryMap_nodup_vals ps g.key vs hvs
    constructor
    · rw [hval]
      exact pairwise_lt_sortStrings vs hnd
    · intro v
      rw [hval, mem_sortStrings]
      exact categoryMap_val ps g.key vs hvs v
  · intro k v
    constructor
    · rintro ⟨g, hg, hk, hv⟩
      rcases mem_buildFilterGroups ps g hg with ⟨vs, hvs, hgv⟩
      have hval : g.values = sortStrings vs := congrArg FilterGroup.values hgv
      rw [hval, mem_sortStrings] at hv
      have hpair := (categoryMap_val ps g.key vs hvs v).mp hv
      have hsome : (lookupCat (categoryMap ps) g.key).isSome = true := by
        rw [hvs]
        rfl
      have hH := ((categoryMap_isSome ps g.key).mp hsome).1
      subst hk
      exact ⟨hH, hpair⟩
    · rintro ⟨hkH, hpair⟩
      have hkey : keyIn ps k := by
        rcases hpair with ⟨p, hp, e, he, hec, _⟩
        exact ⟨p, hp, e, he, hec⟩
      have hsome := (categoryMap_isSome ps k).mpr ⟨hkH, hkey⟩
      rcases Option.isSome_iff_exists.mp hsome with ⟨vs, hvs⟩
      refine ⟨mkGroup k vs, buildFilterGroups_of_lookup ps k vs hvs, rfl, ?_⟩
      show v ∈ sortStrings vs
      rw [mem_sortStrings]
      exact (categoryMap_val ps k vs hvs v).mpr hpair

def tagProduct : Product :=
  { baseProduct with
    id := "t1"
    parsedTags := [("Industry", ["Welding"]), ("Other", ["loose"])] }

theorem claim6_buildFilterGroups_witness :
    (((buildFilterGroups [tagProduct]).map FilterGroup.key).Nodup) ∧
      ("Industry" ∈ (buildFilterGroups [tagProduct]).map FilterGroup.key ↔
        (¬ "Industry" ∈ HIDDEN_CATEGORIES ∧ keyIn [tagProduct] "Industry")) :=
  ⟨(claim6_buildFilterGroups [tagProduct]).1,
   (claim6_buildFilterGroups [tagProduct]).2.1 "Industry"⟩

/- ============================================================
   C7: URL codec — split/join inverses
   ============================================================ -/

theorem splitCommaCh_ne_nil (l : List Char) : splitCommaCh l ≠ [] := by
  cases l with
  | nil => simp [splitCommaCh]
  | cons c cs =>
    unfold splitCommaCh
    by_cases hc : c = ','
    · simp [hc]
    · simp only [hc, if_false]
      cases splitCommaCh cs <;> simp

theorem splitCommaCh_cons (c : Char) (cs : List Char) :
    splitCommaCh (c :: cs) =
      if c = ',' then [] :: splitCommaCh cs
      else
        match splitCommaCh cs with
        | [] => [[c]]
        | h :: t => (c :: h) :: t := rfl

theorem splitCommaCh_no_comma (l : List Char) (h : ¬ ',' ∈ l) : splitCommaCh l = [l] := by
  induction l with
  | nil => rfl
  | cons c cs ih =>
    have hc : ¬ c = ',' := fun hx => h (by simp [hx])
    have ihh := ih (fun hx => h (by simp [hx]))
    rw [splitCommaCh_cons, if_neg hc, ihh]

theorem splitCommaCh_append (l1 l2 : List Char) (h : ¬ ',' ∈ l1) :
    splitCommaCh (l1 ++ ',' :: l2) = l1 :: splitCommaCh l2 := by
  induction l1 with
  | nil => simp [splitCommaCh]
  | cons c cs ih =>
    have hc : ¬ c = ',' := fun hx => h (by simp [hx])
    have ihh := ih (fun hx => h (by simp [hx]))
    show splitCommaCh (c :: (cs ++ ',' :: l2)) = (c :: cs) :: splitCommaCh l2
    rw [splitCommaCh_cons, if_neg hc, ihh]

theorem joinCommaCh_cons_cons (l q : List Char) (t : List (List Char)) :
    joinCommaCh (l :: q :: t) = l ++ ',' :: joinCommaCh (q :: t) := rfl

theorem splitCommaCh_joinCommaCh (pieces : List (List Char))
    (hne : pieces ≠ []) (h : ∀ p ∈ pieces, ¬ ',' ∈ p) :
    splitCommaCh (joinCommaCh pieces) = pieces := by
  induction pieces with
  | nil => exact absurd rfl hne
  | cons p rest ih =>
    cases rest with
    | nil => exact splitCommaCh_no_comma p (h p (by simp))
    | cons q t =>
      rw [joinCommaCh_cons_cons, splitCommaCh_append p _ (h p (by simp))]
      rw [ih (by simp) (fun x hx => h x (by simp [hx]))]

theorem joinCommaCh_splitCommaCh (l : List Char) :
    joinCommaCh (splitCommaCh l) = l := by
  induction l with
  | nil => rfl
  | cons c cs ih =>
    rcases hsp : splitCommaCh cs with _ | ⟨h1, t1⟩
    · exact absurd hsp (splitCommaCh_ne_nil cs)
    · by_cases hc : c = ','
      · subst hc
        rw [splitCommaCh_cons, if_pos rfl, hsp, joinCommaCh_cons_cons]
        show ',' :: joinCommaCh (h1 :: t1) = ',' :: cs
        rw [← hsp, ih]
      · rw [splitCommaCh_cons, if_neg hc, hsp]
        cases t1 with
        | nil =>
          show c :: h1 = c :: cs
          rw [hsp] at ih
          have h2 : h1 = cs := by simpa [joinCommaCh] using ih
          rw [h2]
        | cons q t2 =>
          show joinCommaCh ((c :: h1) :: q :: t2) = c :: cs
          rw [joinCommaCh_cons_cons]
          rw [hsp] at ih
          rw [joinCommaCh_cons_cons] at ih
          show (c :: h1) ++ ',' :: joinCommaCh (q :: t2) = c :: cs
          rw [← ih]
          rfl

theorem string_mk_data (s : String) : String.mk s.data = s := by
  cases s
  rfl

theorem splitComma_joinComma (vs : List String) (hne : vs ≠ [])
    (h : ∀ v ∈ vs, ¬ ',' ∈ v.data) : splitComma (joinComma vs) = vs := by
  unfold splitComma joinComma
  rw [show (String.mk (joinCommaCh (vs.map String.data))).data =
    joinCommaCh (vs.map String.data) from rfl]
  rw [splitCommaCh_joinCommaCh (vs.map String.data) (by simpa using hne)
    (by
      intro p hp
      rcases List.mem_map.mp hp with ⟨v, hv, hpv⟩
      rw [← hpv]
      exact h v hv)]
  rw [List.map_map]
  have : ∀ x ∈ vs, (String.mk ∘ String.data) x = id x := by
    intro x _
    exact string_mk_data x
  rw [List.map_congr_left this, List.map_id]

theorem joinComma_splitComma (s : String) : joinComma (splitComma s) = s := by
  unfold splitComma joinComma
  rw [List.map_map]
  have : ∀ x ∈ splitCommaCh s.data, (String.data ∘ String.mk) x = id x := by
    intro x _
    rfl
  rw [List.map_congr_left this, List.map_id, joinCommaCh_splitCommaCh, string_mk_data]

theorem data_ne_nil_of_ne_empty (v : String) (h : v ≠ "") : v.data ≠ [] := by
  intro hx
  apply h
  rw [← string_mk_data v, hx]

theorem joinComma_ne_empty (v : String) (vs : List String) (h : v ≠ "") :
    joinComma (v :: vs) ≠ "" := by
  intro hx
  have hdata : (joinComma (v :: vs)).data = [] := by
    rw [hx]
  unfold joinComma at hdata
  rw [show (String.mk (joinCommaCh ((v :: vs).map String.data))).data =
    joinCommaCh ((v :: vs).map String.data) from rfl] at hdata
  cases vs with
  | nil => exact data_ne_nil_of_ne_empty v h (by simpa [joinCommaCh] using hdata)
  | cons w t =>
    rw [show (v :: w :: t).map String.data =
        v.data :: w.data :: t.map String.data from rfl,
      joinCommaCh_cons_cons] at hdata
    rcases List.append_eq_nil.mp hdata with ⟨hv, _⟩
    exact data_ne_nil_of_ne_empty v h hv

theorem splitComma_ne_nil (s : String) : splitComma s ≠ [] := by
  unfold splitComma
  intro hx
  exact splitCommaCh_ne_nil s.data (by simpa using hx)

/- ============================================================
   C7: URL codec — parameter list lemmas
   ============================================================ -/

theorem getParam_nil (k : String) : getParam [] k = Option.none := rfl

theorem getParam_cons (p : String × String) (ps : List (String × String)) (k : String) :
    getParam (p :: ps) k = if p.1 = k then some p.2 else getParam ps k := by
  by_cases h : p.1 = k
  · rw [if_pos h]
    unfold getParam
    rw [List.find?_cons_of_pos _ (by simpa using h)]
    rfl
  · rw [if_neg h]
    unfold getParam
    rw [List.find?_cons_of_neg _ (by simpa using h)]

theorem getParam_append_right (ps qs : List (String × String)) (k : String)
    (h : ∀ p ∈ ps, p.1 ≠ k) : getParam (ps ++ qs) k = getParam qs k := by
  induction ps with
  | nil => rfl
  | cons p rest ih =>
    rw [List.cons_append, getParam_cons, if_neg (h p (by simp))]
    exact ih (fun q hq => h q (by simp [hq]))

theorem getParam_append_left (ps qs : List (String × String)) (k : String) (v : String)
    (h : getParam ps k = some v) : getParam (ps ++ qs) k = some v := by
  induction ps with
  | nil => simp [getParam_nil] at h
  | cons p rest ih =>
    rw [List.cons_append, getParam_cons]
    rw [getParam_cons] at h
    by_cases hp : p.1 = k
    · rw [if_pos hp]
      rw [if_pos hp] at h
      exact h
    · rw [if_neg hp]
      rw [if_neg hp] at h
      exact ih h

theorem setParam_cons (p : String × String) (rest : List (String × String))
    (k v : String) :
    setParam (p :: rest) k v =
      if p.1 = k then (k, v) :: rest.filter (fun q => decide (q.1 ≠ k))
      else p :: setParam rest k v := rfl

theorem setParam_fresh (ps : List (String × String)) (k v : String)
    (h : ∀ p ∈ ps, p.1 ≠ k) : setParam ps k v = ps ++ [(k, v)] := by
  induction ps with
  | nil => rfl
  | cons p rest ih =>
    rw [setParam_cons, if_neg (h p (by simp))]
    rw [ih (fun q hq => h q (by simp [hq]))]
    rfl

theorem setFilter_cons (e : String × List String) (rest : List (String × List String))
    (k : String) (vs : List String) :
    setFilter (e :: rest) k vs =
      if e.1 = k then (k, vs) :: rest else e :: setFilter rest k vs := rfl

theorem setFilter_fresh (fs : List (String × List String)) (k : String) (vs : List String)
    (h : ∀ e ∈ fs, e.1 ≠ k) : setFilter fs k vs = fs ++ [(k, vs)] := by
  induction fs with
  | nil => rfl
  | cons e rest ih =>
    rw [setFilter_cons, if_neg (h e (by simp))]
    rw [ih (fun q hq => h q (by simp [hq]))]
    rfl

theorem lookupFilter_eq_lookupCat : lookupFilter = lookupCat := rfl

theorem find_filterMap_none {β : Type} (F : FilterGroup → Option (String × β))
    (hF : ∀ g e, F g = some e → e.1 = g.key) (groups : List FilterGroup) (k : String)
    (h : ∀ g ∈ groups, g.key ≠ k) :
    (groups.filterMap F).find? (fun e => e.1 = k) = Option.none := by
  induction groups with
  | nil => rfl
  | cons g2 rest ih =>
    rw [List.filterMap_cons]
    cases hF2 : F g2 with
    | none => exact ih (fun g hg => h g (by simp [hg]))
    | some e =>
      rw [List.find?_cons_of_neg]
      · exact ih (fun g hg => h g (by simp [hg]))
      · have : e.1 = g2.key := hF g2 e hF2
        simp [this, h g2 (by simp)]

theorem find_filterMap_self {β : Type} (F : FilterGroup → Option (String × β))
    (hF : ∀ g e, F g = some e → e.1 = g.key) (groups : List FilterGroup)
    (hnd : (groups.map FilterGroup.key).Nodup) (g : FilterGroup) (hg : g ∈ groups) :
    (groups.filterMap F).find? (fun e => e.1 = g.key) = F g := by
  induction groups with
  | nil => simp at hg
  | cons g2 rest ih =>
    have hnd2 : (rest.map FilterGroup.key).Nodup := (List.nodup_cons.mp hnd).2
    have hg2r : ¬ g2.key ∈ rest.map FilterGroup.key := (List.nodup_cons.mp hnd).1
    rw [List.filterMap_cons]
    rcases List.mem_cons.mp hg with hgg | hgr
    · subst hgg
      cases hF2 : F g with
      | none =>
        exact find_filterMap_none F hF rest g.key
          (fun g3 hg3 hx => hg2r (hx ▸ List.mem_map_of_mem FilterGroup.key hg3))
      | some e =>
        rw [List.find?_cons_of_pos _ (by simp [hF g e hF2])]
    · have hne : g2.key ≠ g.key := by
        intro hx
        exact hg2r (hx ▸ List.mem_map_of_mem FilterGroup.key hgr)
      cases hF2 : F g2 with
      | none => exact ih hnd2 hgr
      | some e =>
        rw [List.find?_cons_of_neg _ (by simp [hF g2 e hF2, hne])]
        exact ih hnd2 hgr

/-- The group encoder of `writeURLParams`'s final loop. -/
def encodeGroup (st : AppState) (g : FilterGroup) : Option (String × String) :=
  match lookupFilter st.activeFilters g.key with
  | some vs => if vs.isEmpty then Option.none else some (g.key, joinComma vs)
  | none => Option.none

/-- The per-group decoder of `readURLParams`'s filter loop. -/
def decodeGroup (params : List (String × String)) (g : FilterGroup) :
    Option (String × List String) :=
  match getParam params g.key with
  | some v => if v = "" then Option.none else some (g.key, splitComma v)
  | none => Option.none

theorem encodeGroup_eq_none (st : AppState) (g : FilterGroup)
    (h : lookupFilter st.activeFilters g.key = Option.none) :
    encodeGroup st g = Option.none := by
  unfold encodeGroup
  rw [h]

theorem encodeGroup_eq_some (st : AppState) (g : FilterGroup) (vs : List String)
    (h : lookupFilter st.activeFilters g.key = some vs) :
    encodeGroup st g =
      if vs.isEmpty then Option.none else some (g.key, joinComma vs) := by
  unfold encodeGroup
  rw [h]

theorem decodeGroup_eq_none (params : List (String × String)) (g : FilterGroup)
    (h : getParam params g.key = Option.none) :
    decodeGroup params g = Option.none := by
  unfold decodeGroup
  rw [h]

theorem decodeGroup_eq_some (params : List (String × String)) (g : FilterGroup) (v : String)
    (h : getParam params g.key = some v) :
    decodeGroup params g =
      if v = "" then Option.none else some (g.key, splitComma v) := by
  unfold decodeGroup
  rw [h]

theorem encodeGroup_key (st : AppState) (g : FilterGroup) (e : String × String)
    (h : encodeGroup st g = some e) : e.1 = g.key := by
  cases hl : lookupFilter st.activeFilters g.key with
  | none => rw [encodeGroup_eq_none st g hl] at h; simp at h
  | some vs =>
    rw [encodeGroup_eq_some st g vs hl] at h
    by_cases hv : vs.isEmpty
    · rw [if_pos hv] at h; simp at h
    · rw [if_neg hv] at h
      have := Option.some_inj.mp h
      rw [← this]

theorem decodeGroup_key (params : List (String × String)) (g : FilterGroup)
    (e : String × List String) (h : decodeGroup params g = some e) : e.1 = g.key := by
  cases hl : getParam params g.key with
  | none => rw [decodeGroup_eq_none params g hl] at h; simp at h
  | some v =>
    rw [decodeGroup_eq_some params g v hl] at h
    by_cases hv : v = ""
    · rw [if_pos hv] at h; simp at h
    · rw [if_neg hv] at h
      have := Option.some_inj.mp h
      rw [← this]

theorem writeStep_eq_none (st : AppState) (ps : List (String × String)) (g : FilterGroup)
    (h : lookupFilter st.activeFilters g.key = Option.none) : writeStep st ps g = ps := by
  unfold writeStep
  rw [h]

theorem writeStep_eq_some (st : AppState) (ps : List (String × String)) (g : FilterGroup)
    (vs : List String) (h : lookupFilter st.activeFilters g.key = some vs) :
    writeStep st ps g = if vs.isEmpty then ps else setParam ps g.key (joinComma vs) := by
  unfold writeStep
  rw [h]

theorem readStep_eq_none (params : List (String × String))
    (acc : List (String × List String)) (g : FilterGroup)
    (h : getParam params g.key = Option.none) : readStep params acc g = acc := by
  unfold readStep
  rw [h]

theorem readStep_eq_some (params : List (String × String))
    (acc : List (String × List String)) (g : FilterGroup) (v : String)
    (h : getParam params g.key = some v) :
    readStep params acc g = if v = "" then acc else setFilter acc g.key (splitComma v) := by
  unfold readStep
  rw [h]

theorem write_foldl_aux (st : AppState) (groups : List FilterGroup)
    (ps0 : List (String × String))
    (hdisj : ∀ g ∈ groups, ∀ p ∈ ps0, p.1 ≠ g.key)
    (hnd : (groups.map FilterGroup.key).Nodup) :
    groups.foldl (writeStep st) ps0 = ps0 ++ groups.filterMap (encodeGroup st) := by
  induction groups generalizing ps0 with
  | nil => simp
  | cons g rest ih =>
    have hnd2 : (rest.map FilterGroup.key).Nodup := (List.nodup_cons.mp hnd).2
    have hg2r : ¬ g.key ∈ rest.map FilterGroup.key := (List.nodup_cons.mp hnd).1
    rw [List.foldl_cons, List.filterMap_cons]
    cases hl : lookupFilter st.activeFilters g.key with
    | none =>
      rw [encodeGroup_eq_none st g hl, writeStep_eq_none st ps0 g hl]
      exact ih ps0 (fun g2 hg2 p hp => hdisj g2 (by simp [hg2]) p hp) hnd2
    | some vs =>
      rw [encodeGroup_eq_some st g vs hl, writeStep_eq_some st ps0 g vs hl]
      by_cases hv : vs.isEmpty
      · rw [if_pos hv, if_pos hv]
        exact ih ps0 (fun g2 hg2 p hp => hdisj g2 (by simp [hg2]) p hp) hnd2
      · rw [if_neg hv, if_neg hv]
        rw [setParam_fresh ps0 g.key (joinComma vs)
          (fun p hp => hdisj g (by simp) p hp)]
        rw [ih (ps0 ++ [(g.key, joinComma vs)]) ?_ hnd2]
        · rw [List.append_assoc]
          rfl
        · intro g2 hg2 p hp
          rcases List.mem_append.mp hp with hp | hp
          · exact hdisj g2 (by simp [hg2]) p hp
          · have hpe : p = (g.key, joinComma vs) := by simpa using hp
            rw [hpe]
            intro hx
            have hx2 : g.key = g2.key := hx
            exact hg2r (hx2 ▸ List.mem_map_of_mem FilterGroup.key hg2)

theorem read_foldl_aux (params : List (String × String)) (groups : List FilterGroup)
    (acc : List (String × List String))
    (hdisj : ∀ g ∈ groups, ∀ e ∈ acc, e.1 ≠ g.key)
    (hnd : (groups.map FilterGroup.key).Nodup) :
    groups.foldl (readStep params) acc = acc ++ groups.filterMap (decodeGroup params) := by
  induction groups generalizing acc with
  | nil => simp
  | cons g rest ih =>
    have hnd2 : (rest.map FilterGroup.key).Nodup := (List.nodup_cons.mp hnd).2
    have hg2r : ¬ g.key ∈ rest.map FilterGroup.key := (List.nodup_cons.mp hnd).1
    rw [List.foldl_cons, List.filterMap_cons]
    cases hl : getParam params g.key with
    | none =>
      rw [decodeGroup_eq_none params g hl, readStep_eq_none params acc g hl]
      exact ih acc (fun g2 hg2 p hp => hdisj g2 (by simp [hg2]) p hp) hnd2
    | some v =>
      rw [decodeGroup_eq_some params g v hl, readStep_eq_some params acc g v hl]
      by_cases hv : v = ""
      · rw [if_pos hv, if_pos hv]
        exact ih acc (fun g2 hg2 p hp => hdisj g2 (by simp [hg2]) p hp) hnd2
      · rw [if_neg hv, if_neg hv]
        rw [setFilter_fresh acc g.key (splitComma v)
          (fun p hp => hdisj g (by simp) p hp)]
        rw [ih (acc ++ [(g.key, splitComma v)]) ?_ hnd2]
        · rw [List.append_assoc]
          rfl
        · intro g2 hg2 p hp
          rcases List.mem_append.mp hp with hp | hp
          · exact hdisj g2 (by simp [hg2]) p hp
          · have hpe : p = (g.key, splitComma v) := by simpa using hp
            rw [hpe]
            intro hx
            have hx2 : g.key = g2.key := hx
            exact hg2r (hx2 ▸ List.mem_map_of_mem FilterGroup.key hg2)

theorem jsStrOrNone_none : jsStrOrNone Option.none = Option.none := rfl

theorem jsStrOrNone_some (s : String) :
    jsStrOrNone (some s) = if s = "" then Option.none else some s := rfl

theorem jsSortDefault_none : jsSortDefault Option.none = "featured" := rfl

theorem jsSortDefault_some (s : String) :
    jsSortDefault (some s) = if s = "" then "featured" else s := rfl

theorem collectionPart_none : collectionPart Option.none = [] := rfl

theorem collectionPart_some (c : String) :
    collectionPart (some c) = if c = "" then [] else [("collection", c)] := rfl

theorem collectionPart_key (o : Option String) :
    ∀ p ∈ collectionPart o, p.1 = "collection" := by
  cases o with
  | none => simp [collectionPart_none]
  | some c =>
    rw [collectionPart_some]
    by_cases hce : c = ""
    · rw [if_pos hce]
      simp
    · rw [if_neg hce]
      intro p hp
      have : p = ("collection", c) := by simpa using hp
      rw [this]

/-- The sort parameter the encoder emits. -/
def sortPart (s : String) : List (String × String) :=
  if s ≠ "" ∧ s ≠ "featured" then [("sort", s)] else []

theorem sortPart_key (s : String) : ∀ p ∈ sortPart s, p.1 = "sort" := by
  unfold sortPart
  by_cases hs : s ≠ "" ∧ s ≠ "featured"
  · rw [if_pos hs]
    intro p hp
    have : p = ("sort", s) := by simpa using hp
    rw [this]
  · rw [if_neg hs]
    simp

theorem writeURLParams_split (groups : List FilterGroup) (st : AppState)
    (hnd : (groups.map FilterGroup.key).Nodup)
    (hres : ∀ g ∈ groups, g.key ≠ "collection" ∧ g.key ≠ "product" ∧ g.key ≠ "sort") :
    writeURLParams groups st =
      (collectionPart st.collection ++ sortPart st.sort) ++
        groups.filterMap (encodeGroup st) := by
  have hinit : (if st.sort ≠ "" ∧ st.sort ≠ "featured" then
        setParam (collectionPart st.collection) "sort" st.sort
      else collectionPart st.collection) =
      collectionPart st.collection ++ sortPart st.sort := by
    unfold sortPart
    by_cases hs : st.sort ≠ "" ∧ st.sort ≠ "featured"
    · rw [if_pos hs, if_pos hs]
      refine setParam_fresh _ _ _ (fun p hp => ?_)
      rw [collectionPart_key st.collection p hp]
      simp
    · rw [if_neg hs, if_neg hs, List.append_nil]
  unfold writeURLParams
  rw [hinit]
  refine write_foldl_aux st groups _ ?_ hnd
  intro g hg p hp
  rcases List.mem_append.mp hp with hp | hp
  · rw [collectionPart_key st.collection p hp]
    exact fun hx => (hres g hg).1 hx.symm
  · rw [sortPart_key st.sort p hp]
    exact fun hx => (hres g hg).2.2 hx.symm

theorem readURLParams_sort (groups : List FilterGroup) (params : List (String × String))
    (st : AppState) :
    (readURLParams groups params st).sort = jsSortDefault (getParam params "sort") := rfl

theorem readURLParams_collection (groups : List FilterGroup)
    (params : List (String × String)) (st : AppState) :
    (readURLParams groups params st).collection =
      jsStrOrNone (getParam params "collection") := rfl

theorem readURLParams_highlight (groups : List FilterGroup)
    (params : List (String × String)) (st : AppState) :
    (readURLParams groups params st).highlightProduct =
      jsStrOrNone (getParam params "product") := rfl

theorem readURLParams_currentPage (groups : List FilterGroup)
    (params : List (String × String)) (st : AppState) :
    (readURLParams groups params st).currentPage = st.currentPage := rfl

theorem readURLParams_activeFilters (groups : List FilterGroup)
    (params : List (String × String)) (st : AppState) :
    (readURLParams groups params st).activeFilters =
      applyCollectionSeed (jsStrOrNone (getParam params "collection"))
        (groups.foldl (readStep params) []) := rfl

theorem applyCollectionSeed_none (af0 : List (String × List String)) :
    applyCollectionSeed Option.none af0 = af0 := rfl

theorem applyCollectionSeed_some_eq (c : String) (af0 : List (String × List String)) :
    applyCollectionSeed (some c) af0 =
      (match lookupCollection c with
       | some mapping =>
         match lookupFilter af0 mapping.key with
         | some vs =>
           if vs.isEmpty then setFilter af0 mapping.key [mapping.value] else af0
         | none => setFilter af0 mapping.key [mapping.value]
       | none => af0) := rfl

theorem applyCollectionSeed_nomap (c : String) (af0 : List (String × List String))
    (h : lookupCollection c = Option.none) :
    applyCollectionSeed (some c) af0 = af0 := by
  rw [applyCollectionSeed_some_eq, h]

theorem applyCollectionSeed_map_some (c : String) (mp : CollectionMapping)
    (af0 : List (String × List String)) (vs : List String)
    (h : lookupCollection c = some mp) (h2 : lookupFilter af0 mp.key = some vs) :
    applyCollectionSeed (some c) af0 =
      if vs.isEmpty then setFilter af0 mp.key [mp.value] else af0 := by
  rw [applyCollectionSeed_some_eq, h]
  show (match lookupFilter af0 mp.key with
    | some vs => if vs.isEmpty then setFilter af0 mp.key [mp.value] else af0
    | none => setFilter af0 mp.key [mp.value]) = _
  rw [h2]

theorem applyCollectionSeed_map_none (c : String) (mp : CollectionMapping)
    (af0 : List (String × List String))
    (h : lookupCollection c = some mp) (h2 : lookupFilter af0 mp.key = Option.none) :
    applyCollectionSeed (some c) af0 = setFilter af0 mp.key [mp.value] := by
  rw [applyCollectionSeed_some_eq, h]
  show (match lookupFilter af0 mp.key with
    | some vs => if vs.isEmpty then setFilter af0 mp.key [mp.value] else af0
    | none => setFilter af0 mp.key [mp.value]) = _
  rw [h2]

theorem lookupFilter_entry (fs : List (String × List String)) (k : String)
    (vs : List String) (h : lookupFilter fs k = some vs) : (k, vs) ∈ fs := by
  unfold lookupFilter at h
  cases hf : fs.find? (fun e => e.1 = k) with
  | none => rw [hf] at h; simp at h
  | some e =>
    rw [hf] at h
    have he := List.mem_of_find?_eq_some hf
    have hpred := List.find?_some hf
    have h1 : e.1 = k := by simpa using hpred
    have h2 : e.2 = vs := by simpa using h
    obtain ⟨e1, e2⟩ := e
    simp only at h1 h2
    rw [← h1, ← h2]
    exact he

theorem lookupFilter_none_of_no_entry (fs : List (String × List String)) (k : String)
    (h : ∀ e ∈ fs, e.1 ≠ k) : lookupFilter fs k = Option.none := by
  unfold lookupFilter
  rw [List.find?_eq_none.mpr (fun e he => by simpa using h e he)]
  rfl

theorem urlRoundtripA (groups : List FilterGroup) (st : AppState)
    (hnd : (groups.map FilterGroup.key).Nodup)
    (hres : ∀ g ∈ groups, g.key ≠ "collection" ∧ g.key ≠ "product" ∧ g.key ≠ "sort")
    (hsort : st.sort ≠ "")
    (hcolne : st.collection ≠ some "")
    (hwf : ∀ e ∈ st.activeFilters, (∃ g ∈ groups, g.key = e.1) ∧ e.2 ≠ [] ∧
      ∀ v ∈ e.2, v ≠ "" ∧ ¬ ',' ∈ v.data)
    (hcol : ∀ c mp, st.collection = some c → lookupCollection c = some mp →
      ∃ vs, lookupFilter st.activeFilters mp.key = some vs ∧ vs ≠ []) :
    (readURLParams groups (writeURLParams groups st) st).sort = st.sort ∧
      (readURLParams groups (writeURLParams groups st) st).collection = st.collection ∧
      (readURLParams groups (writeURLParams groups st) st).highlightProduct =
        Option.none ∧
      (readURLParams groups (writeURLParams groups st) st).currentPage =
        st.currentPage ∧
      (∀ k, lookupFilter
          (readURLParams groups (writeURLParams groups st) st).activeFilters k =
        lookupFilter st.activeFilters k) := by
  have hP := writeURLParams_split groups st hnd hres
  have hgnone : ∀ k : String, (∀ g ∈ groups, g.key ≠ k) →
      getParam (groups.filterMap (encodeGroup st)) k = Option.none := by
    intro k hk
    unfold getParam
    rw [find_filterMap_none (encodeGroup st) (encodeGroup_key st) groups k hk]
    rfl
  have hPcol : getParam (writeURLParams groups st) "collection" = st.collection := by
    rw [hP, List.append_assoc]
    cases hc : st.collection with
    | none =>
      rw [collectionPart_none, List.nil_append]
      rw [getParam_append_right _ _ _
        (fun p hp => by rw [sortPart_key st.sort p hp]; exact fun h => by simp at h)]
      exact hgnone "collection" (fun g hg => (hres g hg).1)
    | some c =>
      have hcne : ¬ c = "" := fun h => hcolne (by rw [hc, h])
      rw [collectionPart_some, if_neg hcne, List.cons_append]
      rw [getParam_cons, if_pos rfl]
  have hPprod : getParam (writeURLParams groups st) "product" = Option.none := by
    rw [hP, List.append_assoc]
    rw [getParam_append_right _ _ _
      (fun p hp => by rw [collectionPart_key st.collection p hp]
                      exact fun h => by simp at h)]
    rw [getParam_append_right _ _ _
      (fun p hp => by rw [sortPart_key st.sort p hp]; exact fun h => by simp at h)]
    exact hgnone "product" (fun g hg => (hres g hg).2.1)
  have hPsort : getParam (writeURLParams groups st) "sort" =
      (if st.sort = "featured" then Option.none else some st.sort) := by
    rw [hP, List.append_assoc]
    rw [getParam_append_right _ _ _
      (fun p hp => by rw [collectionPart_key st.collection p hp]
                      exact fun h => by simp at h)]
    by_cases hfeat : st.sort = "featured"
    · rw [if_pos hfeat]
      rw [show sortPart st.sort = [] by unfold sortPart; rw [if_neg]; simp [hfeat]]
      rw [List.nil_append]
      exact hgnone "sort" (fun g hg => (hres g hg).2.2)
    · rw [if_neg hfeat]
      rw [show sortPart st.sort = [("sort", st.sort)] by
        unfold sortPart; rw [if_pos ⟨hsort, hfeat⟩]]
      rw [List.cons_append, getParam_cons, if_pos rfl]
  have hdg : ∀ g ∈ groups, decodeGroup (writeURLParams groups st) g =
      (lookupFilter st.activeFilters g.key).map (fun vs => (g.key, vs)) := by
    intro g hg
    have hgp : getParam (writeURLParams groups st) g.key =
        (encodeGroup st g).map Prod.snd := by
      rw [hP, List.append_assoc]
      rw [getParam_append_right _ _ _
        (fun p hp => by rw [collectionPart_key st.collection p hp]
                        exact fun h => (hres g hg).1 h.symm)]
      rw [getParam_append_right _ _ _
        (fun p hp => by rw [sortPart_key st.sort p hp]
                        exact fun h => (hres g hg).2.2 h.symm)]
      unfold getParam
      rw [find_filterMap_self (encodeGroup st) (encodeGroup_key st) groups hnd g hg]
    cases hl : lookupFilter st.activeFilters g.key with
    | none =>
      rw [encodeGroup_eq_none st g hl] at hgp
      rw [decodeGroup_eq_none _ g (by simpa using hgp)]
      rfl
    | some vs =>
      have hmem := lookupFilter_entry _ _ _ hl
      rcases hwf (g.key, vs) hmem with ⟨_, hvne, hvals⟩
      have hie : vs.isEmpty = false := by
        cases hvv : vs with
        | nil => exact absurd hvv hvne
        | cons a t => rfl
      rw [encodeGroup_eq_some st g vs hl, hie] at hgp
      simp only [Bool.false_eq_true, if_false, Option.map_some'] at hgp
      obtain ⟨v0, vrest, hvv⟩ : ∃ v0 vrest, vs = v0 :: vrest := by
        cases hvv : vs with
        | nil => exact absurd hvv hvne
        | cons a t => exact ⟨a, t, rfl⟩
      have hjne : joinComma vs ≠ "" := by
        rw [hvv]
        exact joinComma_ne_empty v0 vrest (hvals v0 (by rw [hvv]; simp)).1
      rw [decodeGroup_eq_some _ g (joinComma vs) hgp, if_neg hjne]
      rw [splitComma_joinComma vs hvne (fun v hv => (hvals v hv).2)]
      rfl
  have haf0 : groups.foldl (readStep (writeURLParams groups st)) [] =
      groups.filterMap (decodeGroup (writeURLParams groups st)) :=
    read_foldl_aux _ groups [] (by simp) hnd
  have hlook : ∀ k, lookupFilter
      (groups.foldl (readStep (writeURLParams groups st)) []) k =
      lookupFilter st.activeFilters k := by
    intro k
    rw [haf0]
    by_cases hex : ∃ g ∈ groups, g.key = k
    · rcases hex with ⟨g, hg, hgk⟩
      subst hgk
      unfold lookupFilter
      rw [find_filterMap_self (decodeGroup _) (decodeGroup_key _) groups hnd g hg]
      rw [hdg g hg]
      cases hl : lookupFilter st.activeFilters g.key with
      | none =>
        unfold lookupFilter at hl
        rw [hl]
        rfl
      | some vs =>
        unfold lookupFilter at hl
        rw [hl]
        rfl
    · have hnone : lookupFilter st.activeFilters k = Option.none := by
        refine lookupFilter_none_of_no_entry _ _ (fun e he hx => ?_)
        rcases (hwf e he).1 with ⟨g, hg, hgk⟩
        exact hex ⟨g, hg, by rw [hgk, hx]⟩
      rw [hnone]
      unfold lookupFilter
      rw [find_filterMap_none (decodeGroup _) (decodeGroup_key _) groups k
        (fun g hg hx => hex ⟨g, hg, hx⟩)]
      rfl
  have hdcol : jsStrOrNone (getParam (writeURLParams groups st) "collection") =
      st.collection := by
    rw [hPcol]
    cases hc : st.collection with
    | none => rfl
    | some c =>
      have hcne : ¬ c = "" := fun h => hcolne (by rw [hc, h])
      rw [jsStrOrNone_some, if_neg hcne]
  refine ⟨?_, ?_, ?_, readURLParams_currentPage groups _ st, ?_⟩
  · rw [readURLParams_sort, hPsort]
    by_cases hfeat : st.sort = "featured"
    · rw [if_pos hfeat, jsSortDefault_none, hfeat]
    · rw [if_neg hfeat, jsSortDefault_some, if_neg hsort]
  · rw [readURLParams_collection, hdcol]
  · rw [readURLParams_highlight, hPprod, jsStrOrNone_none]
  · intro k
    rw [readURLParams_activeFilters, hdcol]
    cases hc : st.collection with
    | none =>
      rw [applyCollectionSeed_none]
      exact hlook k
    | some c =>
      cases hmp : lookupCollection c with
      | none =>
        rw [applyCollectionSeed_nomap c _ hmp]
        exact hlook k
      | some mp =>
        rcases hcol c mp hc hmp with ⟨vs, hvs, hvne⟩
        have hie : vs.isEmpty = false := by
          cases hvv : vs with
          | nil => exact absurd hvv hvne
          | cons a t => rfl
        rw [applyCollectionSeed_map_some c mp _ vs hmp
          ((hlook mp.key).trans hvs), hie]
        simp only [Bool.false_eq_true, if_false]
        exact hlook k

theorem lookupFilter_append_single (xs : List (String × List String))
    (e : String × List String) (k : String) (hek : e.1 ≠ k) :
    lookupFilter (xs ++ [e]) k = lookupFilter xs k := by
  rw [lookupFilter_eq_lookupCat]
  induction xs with
  | nil =>
    rw [List.nil_append, lookupCat_cons, if_neg hek]
  | cons x rest ih =>
    rw [List.cons_append, lookupCat_cons, lookupCat_cons]
    by_cases hx : x.1 = k
    · rw [if_pos hx, if_pos hx]
    · rw [if_neg hx, if_neg hx, ih]

theorem filterMap_congr_mem {α β : Type} (l : List α) (f g : α → Option β)
    (h : ∀ a ∈ l, f a = g a) : l.filterMap f = l.filterMap g := by
  induction l with
  | nil => rfl
  | cons a rest ih =>
    rw [List.filterMap_cons, List.filterMap_cons, h a (by simp),
      ih (fun x hx => h x (by simp [hx]))]

/-- The value of the unique parameter of a zero-or-one element list. -/
def headVal (l : List (String × String)) : Option String :=
  match l with
  | [] => Option.none
  | p :: _ => some p.2

theorem urlRoundtripB (groups : List FilterGroup) (st0 : AppState)
    (fv : FilterGroup → Option String) (cPart sPart : List (String × String))
    (hnd : (groups.map FilterGroup.key).Nodup)
    (hres : ∀ g ∈ groups, g.key ≠ "collection" ∧ g.key ≠ "product" ∧ g.key ≠ "sort")
    (hc : cPart = [] ∨ ∃ c, c ≠ "" ∧ cPart = [("collection", c)])
    (hs : sPart = [] ∨ ∃ s, s ≠ "" ∧ s ≠ "featured" ∧ sPart = [("sort", s)])
    (hfv : ∀ g v, fv g = some v → v ≠ "")
    (hseed : ∀ c mp, cPart = [("collection", c)] → lookupCollection c = some mp →
      (∃ g ∈ groups, g.key = mp.key) →
      ∃ g ∈ groups, g.key = mp.key ∧ fv g ≠ Option.none) :
    writeURLParams groups
      (readURLParams groups
        (cPart ++ sPart ++ groups.filterMap (fun g => (fv g).map (fun v => (g.key, v))))
        st0) =
      cPart ++ sPart ++
        groups.filterMap (fun g => (fv g).map (fun v => (g.key, v))) := by
  have hFkey : ∀ (g : FilterGroup) (e : String × String),
      (fv g).map (fun v => (g.key, v)) = some e → e.1 = g.key := by
    intro g e he
    cases hv : fv g with
    | none => rw [hv] at he; simp at he
    | some v =>
      rw [hv] at he
      simp only [Option.map_some', Option.some_inj] at he
      rw [← he]
  have hcp : ∀ p ∈ cPart, p.1 = "collection" := by
    rcases hc with hc2 | ⟨c, _, hc2⟩ <;> rw [hc2]
    · simp
    · intro p hp
      have : p = ("collection", c) := by simpa using hp
      rw [this]
  have hsp : ∀ p ∈ sPart, p.1 = "sort" := by
    rcases hs with hs2 | ⟨s, _, _, hs2⟩ <;> rw [hs2]
    · simp
    · intro p hp
      have : p = ("sort", s) := by simpa using hp
      rw [this]
  have hgnone : ∀ k : String, (∀ g ∈ groups, g.key ≠ k) →
      getParam (groups.filterMap (fun g => (fv g).map (fun v => (g.key, v)))) k =
        Option.none := by
    intro k hk
    unfold getParam
    rw [find_filterMap_none _ hFkey groups k hk]
    rfl
  have hPcol : getParam (cPart ++ sPart ++
      groups.filterMap (fun g => (fv g).map (fun v => (g.key, v)))) "collection" =
      headVal cPart := by
    rw [List.append_assoc]
    rcases hc with hc2 | ⟨c, hcne, hc2⟩ <;> rw [hc2]
    · rw [List.nil_append,
        getParam_append_right _ _ _
          (fun p hp => by rw [hsp p hp]; exact fun h => by simp at h),
        hgnone "collection" (fun g hg => (hres g hg).1)]
      rfl
    · rw [List.cons_append, getParam_cons, if_pos rfl]
      rfl
  have hPsort : getParam (cPart ++ sPart ++
      groups.filterMap (fun g => (fv g).map (fun v => (g.key, v)))) "sort" =
      headVal sPart := by
    rw [List.append_assoc]
    rw [getParam_append_right _ _ _
      (fun p hp => by rw [hcp p hp]; exact fun h => by simp at h)]
    rcases hs with hs2 | ⟨s, hsne, hsnf, hs2⟩ <;> rw [hs2]
    · rw [List.nil_append, hgnone "sort" (fun g hg => (hres g hg).2.2)]
      rfl
    · rw [List.cons_append, getParam_cons, if_pos rfl]
      rfl
  have hPg : ∀ g ∈ groups, getParam (cPart ++ sPart ++
      groups.filterMap (fun g => (fv g).map (fun v => (g.key, v)))) g.key = fv g := by
    intro g hg
    rw [List.append_assoc]
    rw [getParam_append_right _ _ _
      (fun p hp => by rw [hcp p hp]; exact fun h => (hres g hg).1 h.symm)]
    rw [getParam_append_right _ _ _
      (fun p hp => by rw [hsp p hp]; exact fun h => (hres g hg).2.2 h.symm)]
    unfold getParam
    rw [find_filterMap_self _ hFkey groups hnd g hg]
    cases hv : fv g with
    | none => rfl
    | some v => rfl
  have hdg : ∀ g ∈ groups, decodeGroup (cPart ++ sPart ++
      groups.filterMap (fun g => (fv g).map (fun v => (g.key, v)))) g =
      (fv g).map (fun v => (g.key, splitComma v)) := by
    intro g hg
    cases hv : fv g with
    | none =>
      rw [decodeGroup_eq_none _ g (by rw [hPg g hg, hv])]
      rfl
    | some v =>
      rw [decodeGroup_eq_some _ g v (by rw [hPg g hg, hv]),
        if_neg (hfv g v hv)]
      rfl
  have haf0 : groups.foldl (readStep (cPart ++ sPart ++
      groups.filterMap (fun g => (fv g).map (fun v => (g.key, v))))) [] =
      groups.filterMap (fun g => (fv g).map (fun v => (g.key, splitComma v))) := by
    rw [read_foldl_aux _ groups [] (by simp) hnd, List.nil_append]
    exact filterMap_congr_mem groups _ _ hdg
  have hFkey2 : ∀ (g : FilterGroup) (e : String × List String),
      (fv g).map (fun v => (g.key, splitComma v)) = some e → e.1 = g.key := by
    intro g e he
    cases hv : fv g with
    | none => rw [hv] at he; simp at he
    | some v =>
      rw [hv] at he
      simp only [Option.map_some', Option.some_inj] at he
      rw [← he]
  have haf0look : ∀ g ∈ groups, lookupFilter
      (groups.filterMap (fun g => (fv g).map (fun v => (g.key, splitComma v)))) g.key =
      (fv g).map splitComma := by
    intro g hg
    unfold lookupFilter
    rw [find_filterMap_self _ hFkey2 groups hnd g hg]
    cases hv : fv g with
    | none => rfl
    | some v => rfl
  have haf0look_none : ∀ k, (∀ g ∈ groups, g.key ≠ k) → lookupFilter
      (groups.filterMap (fun g => (fv g).map (fun v => (g.key, splitComma v)))) k =
      Option.none := by
    intro k hk
    unfold lookupFilter
    rw [find_filterMap_none _ hFkey2 groups k hk]
    rfl
  have hafinal : ∀ g ∈ groups,
      lookupFilter (readURLParams groups (cPart ++ sPart ++
        groups.filterMap (fun g => (fv g).map (fun v => (g.key, v)))) st0).activeFilters
        g.key = (fv g).map splitComma := by
    intro g hg
    rw [readURLParams_activeFilters, hPcol, haf0]
    rcases hc with hc2 | ⟨c, hcne, hc2⟩ <;> rw [hc2]
    · rw [show headVal [] = Option.none from rfl, jsStrOrNone_none,
        applyCollectionSeed_none]
      exact haf0look g hg
    · rw [show headVal [("collection", c)] = some c from rfl,
        jsStrOrNone_some, if_neg hcne]
      cases hmp : lookupCollection c with
      | none =>
        rw [applyCollectionSeed_nomap c _ hmp]
        exact haf0look g hg
      | some mp =>
        by_cases hmem : ∃ g2 ∈ groups, g2.key = mp.key
        · rcases hseed c mp hc2 hmp hmem with ⟨g2, hg2, hg2k, hg2v⟩
          obtain ⟨v2, hv2⟩ : ∃ v2, fv g2 = some v2 := by
            cases hx : fv g2 with
            | none => exact absurd hx hg2v
            | some v2 => exact ⟨v2, rfl⟩
          have hlk : lookupFilter (groups.filterMap
              (fun g => (fv g).map (fun v => (g.key, splitComma v)))) mp.key =
              some (splitComma v2) := by
            rw [← hg2k, haf0look g2 hg2, hv2]
            rfl
          have hsne2 : (splitComma v2).isEmpty = false := by
            cases hvv : splitComma v2 with
            | nil => exact absurd hvv (splitComma_ne_nil v2)
            | cons a t => rfl
          rw [applyCollectionSeed_map_some c mp _ (splitComma v2) hmp hlk, hsne2]
          simp only [Bool.false_eq_true, if_false]
          exact haf0look g hg
        · have hlk : lookupFilter (groups.filterMap
              (fun g => (fv g).map (fun v => (g.key, splitComma v)))) mp.key =
              Option.none :=
            haf0look_none mp.key (fun g2 hg2 hx => hmem ⟨g2, hg2, hx⟩)
          rw [applyCollectionSeed_map_none c mp _ hmp hlk]
          rw [setFilter_fresh _ _ _ (fun e he => ?_)]
          · rw [lookupFilter_append_single _ _ _ ?_]
            · exact haf0look g hg
            · exact fun hx => hmem ⟨g, hg, hx.symm⟩
          · intro hx
            rcases List.mem_filterMap.mp he with ⟨g2, hg2, hge⟩
            exact hmem ⟨g2, hg2, by rw [← hFkey2 g2 e hge, hx]⟩
  rw [writeURLParams_split groups _ hnd hres]
  have hcpeq : collectionPart (readURLParams groups (cPart ++ sPart ++
      groups.filterMap (fun g => (fv g).map (fun v => (g.key, v)))) st0).collection =
      cPart := by
    rw [readURLParams_collection, hPcol]
    rcases hc with hc2 | ⟨c, hcne, hc2⟩ <;> rw [hc2]
    · rfl
    · rw [show headVal [("collection", c)] = some c from rfl,
        jsStrOrNone_some, if_neg hcne, collectionPart_some, if_neg hcne]
  have hspeq : sortPart (readURLParams groups (cPart ++ sPart ++
      groups.filterMap (fun g => (fv g).map (fun v => (g.key, v)))) st0).sort =
      sPart := by
    rw [readURLParams_sort, hPsort]
    rcases hs with hs2 | ⟨s, hsne, hsnf, hs2⟩ <;> rw [hs2]
    · rw [show headVal [] = Option.none from rfl, jsSortDefault_none]
      unfold sortPart
      rw [if_neg (by simp)]
    · rw [show headVal [("sort", s)] = some s from rfl,
        jsSortDefault_some, if_neg hsne]
      unfold sortPart
      rw [if_pos ⟨hsne, hsnf⟩]
  have hgeq : groups.filterMap (encodeGroup (readURLParams groups (cPart ++ sPart ++
      groups.filterMap (fun g => (fv g).map (fun v => (g.key, v)))) st0)) =
      groups.filterMap (fun g => (fv g).map (fun v => (g.key, v))) := by
    refine filterMap_congr_mem groups _ _ (fun g hg => ?_)
    cases hv : fv g with
    | none =>
      rw [encodeGroup_eq_none _ g (by rw [hafinal g hg, hv]; rfl)]
      rfl
    | some v =>
      have hsne2 : (splitComma v).isEmpty = false := by
        cases hvv : splitComma v with
        | nil => exact absurd hvv (splitComma_ne_nil v)
        | cons a t => rfl
      rw [encodeGroup_eq_some _ g (splitComma v)
        (by rw [hafinal g hg, hv]; rfl), hsne2]
      simp only [Bool.false_eq_true, if_false]
      rw [joinComma_splitComma]
      rfl
  rw [hcpeq, hspeq, hgeq, List.append_assoc]

def demoGroups : List FilterGroup :=
  [{ key := "Industry", label := "Industry", values := ["Welding"] }]

def demoState : AppState :=
  { activeFilters := [], sort := "featured", collection := some "welding",
    highlightProduct := Option.none, currentPage := 1 }

/-- C7, counterexample. The claim says decode(encode(state)) restores
`activeFilters` exactly; but with a collection alias set and its aliased
group unselected, decoding seeds that group's filter, so the decoded
`activeFilters` differ from the encoded state's (empty) filters. -/
theorem claim7_counterexample :
    (readURLParams demoGroups (writeURLParams demoGroups demoState)
        demoState).activeFilters ≠ demoState.activeFilters := by
  decide

/-- C7, amended. (1) decode(encode(state)) restores `sort`, `collection`
and — extensionally — `activeFilters`, resets `highlightProduct` to none
and leaves `currentPage` untouched (the decoder simply never assigns
it), provided the taxonomy's keys are distinct and avoid the reserved
parameter names, `sort` and `collection` are not the empty string, every
active filter entry sits under a known group key with a non-empty list
of non-empty comma-free values, and a set collection alias's target
group already has a selection (otherwise seeding changes the filters).
(2) encode(decode(url)) reproduces a query exactly when it is in the
encoder's canonical shape: an optional non-empty `collection`, an
optional `sort` other than the default, then one non-empty value per
selected group in taxonomy order, with no `product` parameter, and no
collection alias that would seed a group the query leaves unselected. -/
theorem claim7_urlCodec :
    (∀ (groups : List FilterGroup) (st : AppState),
      (groups.map FilterGroup.key).Nodup →
      (∀ g ∈ groups, g.key ≠ "collection" ∧ g.key ≠ "product" ∧ g.key ≠ "sort") →
      st.sort ≠ "" →
      st.collection ≠ some "" →
      (∀ e ∈ st.activeFilters, (∃ g ∈ groups, g.key = e.1) ∧ e.2 ≠ [] ∧
        ∀ v ∈ e.2, v ≠ "" ∧ ¬ ',' ∈ v.data) →
      (∀ c mp, st.collection = some c → lookupCollection c = some mp →
        ∃ vs, lookupFilter st.activeFilters mp.key = some vs ∧ vs ≠ []) →
      ((readURLParams groups (writeURLParams groups st) st).sort = st.sort ∧
        (readURLParams groups (writeURLParams groups st) st).collection =
          st.collection ∧
        (readURLParams groups (writeURLParams groups st) st).highlightProduct =
          Option.none ∧
        (readURLParams groups (writeURLParams groups st) st).currentPage =
          st.currentPage ∧
        (∀ k, lookupFilter
            (readURLParams groups (writeURLParams groups st) st).activeFilters k =
          lookupFilter st.activeFilters k))) ∧
    (∀ (groups : List FilterGroup) (st0 : AppState)
      (fv : FilterGroup → Option String) (cPart sPart : List (String × String)),
      (groups.map FilterGroup.key).Nodup →
      (∀ g ∈ groups, g.key ≠ "collection" ∧ g.key ≠ "product" ∧ g.key ≠ "sort") →
      (cPart = [] ∨ ∃ c, c ≠ "" ∧ cPart = [("collection", c)]) →
      (sPart = [] ∨ ∃ s, s ≠ "" ∧ s ≠ "featured" ∧ sPart = [("sort", s)]) →
      (∀ g v, fv g = some v → v ≠ "") →
      (∀ c mp, cPart = [("collection", c)] → lookupCollection c = some mp →
        (∃ g ∈ groups, g.key = mp.key) →
        ∃ g ∈ groups, g.key = mp.key ∧ fv g ≠ Option.none) →
      writeURLParams groups
        (readURLParams groups
          (cPart ++ sPart ++
            groups.filterMap (fun g => (fv g).map (fun v => (g.key, v)))) st0) =
        cPart ++ sPart ++
          groups.filterMap (fun g => (fv g).map (fun v => (g.key, v)))) :=
  ⟨fun groups st h1 h2 h3 h4 h5 h6 => urlRoundtripA groups st h1 h2 h3 h4 h5 h6,
   fun groups st0 fv cPart sPart h1 h2 h3 h4 h5 h6 =>
     urlRoundtripB groups st0 fv cPart sPart h1 h2 h3 h4 h5 h6⟩

def rtState : AppState :=
  { activeFilters := [("Industry", ["Welding"])], sort := "price-asc",
    collection := some "welding", highlightProduct := some "x", currentPage := 7 }

def rtFv : FilterGroup → Option String := fun _ => some "Welding"

theorem claim7_urlCodec_witness :
    ((readURLParams demoGroups (writeURLParams demoGroups rtState) rtState).sort =
        rtState.sort ∧
      (readURLParams demoGroups (writeURLParams demoGroups rtState)
          rtState).collection = rtState.collection ∧
      (readURLParams demoGroups (writeURLParams demoGroups rtState)
          rtState).highlightProduct = Option.none ∧
      (readURLParams demoGroups (writeURLParams demoGroups rtState)
          rtState).currentPage = rtState.currentPage ∧
      lookupFilter (readURLParams demoGroups (writeURLParams demoGroups rtState)
          rtState).activeFilters "Industry" =
        lookupFilter rtState.activeFilters "Industry") ∧
    writeURLParams demoGroups
      (readURLParams demoGroups
        ([("collection", "welding")] ++ [("sort", "price-asc")] ++
          demoGroups.filterMap (fun g => (rtFv g).map (fun v => (g.key, v)))) rtState) =
      [("collection", "welding")] ++ [("sort", "price-asc")] ++
        demoGroups.filterMap (fun g => (rtFv g).map (fun v => (g.key, v))) := by
  constructor
  · have h := claim7_urlCodec.1 demoGroups rtState (by decide) (by decide)
      (by decide) (by decide) (by decide)
      (by
        intro c mp hcq hmp
        have hc2 : "welding" = c := by
          have := Option.some_inj.mp hcq
          exact this
        subst hc2
        have hlc : lookupCollection "welding" =
            some { key := "Industry", value := "Welding" } := by decide
        rw [hlc] at hmp
        have hmp2 := Option.some_inj.mp hmp
        rw [← hmp2]
        exact ⟨["Welding"], by decide, by decide⟩)
    exact ⟨h.1, h.2.1, h.2.2.1, h.2.2.2.1, h.2.2.2.2 "Industry"⟩
  · refine claim7_urlCodec.2 demoGroups rtState rtFv
      [("collection", "welding")] [("sort", "price-asc")]
      (by decide) (by decide)
      (Or.inr ⟨"welding", by decide, rfl⟩)
      (Or.inr ⟨"price-asc", by decide, by decide, rfl⟩)
      (by
        intro g v hv
        have : "Welding" = v := Option.some_inj.mp hv
        rw [← this]
        decide)
      (by
        intro c mp hcq hmp hmem
        rcases hmem with ⟨g, hg, hk⟩
        exact ⟨g, hg, hk, by
          rw [show rtFv g = some "Welding" from rfl]
          simp⟩)
